import Mathlib

/-!
Shallow embedding of the CTF (Compressed Text Format) core
(`packages/ctf-core/src/{utils,references,optimizer,encoder,decoder}.ts`)
and verification of the frozen specification claims.

Modelling conventions:
* JavaScript strings are modelled as `List Char` (`Str`); string values in
  statements are written with `"...".data`.
* JavaScript numbers are modelled as `Int`.  Every claim under verification
  involves only integral numeric tokens; the classification of a token as
  numeric (`jsNumeric`) follows the full `Number(...)` grammar, while the
  numeric *value* is computed exactly on the sign+digits fragment (and on
  radix literals), which is the only fragment the claims exercise.
* JavaScript `Map`s and plain objects are modelled as insertion-ordered
  association lists with in-place overwrite (`upsert`), matching the
  iteration order of string-keyed maps and objects.  (The JS reordering of
  integer-like object keys is not modelled; no claim involves such keys.)
* Loops whose progress is not structural are given an explicit `fuel`
  argument; `decode` supplies `lines.length + 1`, which the position
  invariant (each recursive call advances the line position) makes
  sufficient.  `CTFError.fuel` marks fuel exhaustion and is an artifact of
  the embedding, never reached with that supply.
* Thrown `CTFParseError` / `CTFValidationError` exceptions are modelled with
  `Except CTFError`; the error constructors record the same data as the
  exception messages.
-/

namespace CTF

/-- JavaScript strings, modelled as lists of characters. -/
abbrev Str := List Char

/-- Whitespace recognized by JS `trim` / regex `\s` (the ASCII part; exotic
Unicode spaces are not modelled and occur in no claim). -/
def jsWhite (c : Char) : Bool :=
  c = ' ' || c = '\t' || c = '\n' || c = '\r' || c = '\x0b' || c = '\x0c'

/-- JS `String.prototype.trimStart`. -/
def trimStart : Str → Str
  | [] => []
  | c :: r => if jsWhite c then trimStart r else c :: r

/-- JS `String.prototype.trimEnd` (used on every input line by `decode`). -/
def trimEnd (s : Str) : Str :=
  (trimStart s.reverse).reverse

/-- JS `String.prototype.trim`. -/
def trim (s : Str) : Str :=
  trimStart (trimEnd s)

/-- JS `str.split('\n')`: splits on every newline, keeping empty pieces
(`""` splits to `[""]`). -/
def splitNL : Str → List Str
  | [] => [[]]
  | c :: r =>
      if c = '\n' then [] :: splitNL r
      else match splitNL r with
        | [] => [[c]]
        | p :: ps => (c :: p) :: ps

/-- JS `lines.join('\n')`. -/
def joinNL (lines : List Str) : Str :=
  match lines with
  | [] => []
  | [l] => l
  | l :: rest => l ++ '\n' :: joinNL rest

/-- ASCII decimal digit test (regex `\d`, `[0-9]`). -/
def isDigitC (c : Char) : Bool := '0' ≤ c && c ≤ '9'

/-- Value of a list of decimal digits. -/
def natOfDigits (ds : Str) : Nat :=
  ds.foldl (fun a c => a * 10 + (c.toNat - 48)) 0

/-- Decimal rendering of a natural number (worker; fuel bounds the digit
count and is always supplied as `n + 1`). -/
def natToCharsGo : Nat → Nat → Str
  | 0, _ => []
  | f + 1, n =>
      if n < 10 then [Char.ofNat (48 + n)]
      else natToCharsGo f (n / 10) ++ [Char.ofNat (48 + n % 10)]

/-- Decimal rendering of a natural number, as JS `String(n)`. -/
def natToChars (n : Nat) : Str := natToCharsGo (n + 1) n

/-- JS `String(n)` for an integer. -/
def intToChars (n : Int) : Str :=
  if n < 0 then '-' :: natToChars n.natAbs else natToChars n.natAbs

/-- JS `str.endsWith(c)` for a single character. -/
def lastIs (c : Char) (s : Str) : Bool :=
  match s.getLast? with
  | some d => d = c
  | none => false

/-- JS `str.startsWith(c)` for a single character. -/
def headIs (c : Char) (s : Str) : Bool :=
  match s with
  | [] => false
  | d :: _ => d = c

/-- Split at the first occurrence of `c` (JS `indexOf` + two `substring`s);
`none` when `c` does not occur. -/
def splitAtFirst (c : Char) : Str → Option (Str × Str)
  | [] => none
  | x :: xs =>
      if x = c then some ([], xs)
      else match splitAtFirst c xs with
        | some (a, b) => some (x :: a, b)
        | none => none

/-- JS `str.split(c)` for a single-character separator (used for the
comma-separated field list of array headers). -/
def splitAll (c : Char) : Str → List Str
  | [] => [[]]
  | x :: xs =>
      if x = c then [] :: splitAll c xs
      else match splitAll c xs with
        | [] => [[x]]
        | p :: ps => (x :: p) :: ps

/-- JS `str.split(/\s+/)` applied to a trimmed, nonempty string: maximal
runs of non-whitespace characters. -/
def splitWhiteRuns : Str → List Str
  | [] => []
  | c :: r =>
      if jsWhite c then splitWhiteRuns r
      else match splitWhiteRuns r with
        | p :: ps =>
            match r with
            | r0 :: _ => if jsWhite r0 then [c] :: p :: ps else (c :: p) :: ps
            | [] => (c :: p) :: ps
        | [] => [[c]]

/-- JS `str.includes('  ')`: two consecutive spaces somewhere. -/
def hasDoubleSpace : Str → Bool
  | a :: b :: r => (a = ' ' && b = ' ') || hasDoubleSpace (b :: r)
  | _ => false

/-- Insertion-ordered association-list update with in-place overwrite,
the behaviour of `map.set` / `obj[key] = v` for string keys. -/
def upsert {α : Type} (k : Str) (v : α) : List (Str × α) → List (Str × α)
  | [] => [(k, v)]
  | (k', v') :: r => if k' = k then (k, v) :: r else (k', v') :: upsert k v r

/-- Association-list lookup (JS `map.get` / property read). -/
def alookup {α : Type} (k : Str) : List (Str × α) → Option α
  | [] => none
  | (k', v') :: r => if k' = k then some v' else alookup k r

/-! ### The value model (`JsonValue` of `types.ts`) -/

/-- The `JsonValue` union of `types.ts`: `null`, booleans, numbers, strings,
arrays, and insertion-ordered objects. -/
inductive Json where
  | null
  | bool (b : Bool)
  | num (n : Int)
  | str (s : Str)
  | arr (elems : List Json)
  | obj (fields : List (Str × Json))

/-- `utils.isObject`: a non-null, non-array object. -/
def isObjectJ : Json → Bool
  | .obj _ => true
  | _ => false

/-- `utils.isArray`. -/
def isArrayJ : Json → Bool
  | .arr _ => true
  | _ => false

/-- `utils.isPrimitive`: null, string, number or boolean. -/
def isPrimitiveJ : Json → Bool
  | .null => true
  | .bool _ => true
  | .num _ => true
  | .str _ => true
  | _ => false

/-- Object keys in insertion order (`Object.keys`). -/
def keysOf (fields : List (Str × Json)) : List Str :=
  fields.map Prod.fst

/-- JS truthiness of a `JsonValue` (`null`, `false`, `0` and `""` are falsy;
objects and arrays are always truthy). -/
def jsTruthy : Json → Bool
  | .null => false
  | .bool b => b
  | .num n => n ≠ 0
  | .str s => s ≠ []
  | .arr _ => true
  | .obj _ => true

/-- JS `String(v)` on a primitive value (`shouldUseColumnar` and
`encodeColumn` stringify cell values).  Containers never reach this call in
the source (they are excluded by `allPrimitiveValues`); they are mapped to
`[]` here. -/
def jsStringPrim : Json → Str
  | .null => "null".data
  | .bool true => "true".data
  | .bool false => "false".data
  | .num n => intToChars n
  | .str s => s
  | _ => []

/-! ### `utils.ts` -/

/-- The character class of `needsQuoting`'s first regex,
`[:|\t\n\r"\[\]{},^@]`. -/
def quotingChar (c : Char) : Bool :=
  c = ':' || c = '|' || c = '\t' || c = '\n' || c = '\r' || c = '"' ||
  c = '[' || c = ']' || c = '{' || c = '}' || c = ',' || c = '^' || c = '@'

/-- `utils.needsQuoting`: contains a special character, starts with a
digit, or contains two consecutive spaces. -/
def needsQuoting (s : Str) : Bool :=
  s.any quotingChar ||
  (match s with
   | c :: _ => isDigitC c
   | [] => false) ||
  hasDoubleSpace s

/-- Body of `escapeString`'s quoting: each `\` doubled, each `"` prefixed
with `\` (`.replace(/\\/g,'\\\\').replace(/"/g,'\\"')` — the two passes
commute into this single character map). -/
def escBody : Str → Str
  | [] => []
  | c :: r =>
      (if c = '\\' then ['\\', '\\']
       else if c = '"' then ['\\', '"']
       else [c]) ++ escBody r

/-- `utils.escapeString`: quote (and escape `\`, `"`) iff `needsQuoting`. -/
def escapeString (s : Str) : Str :=
  if needsQuoting s then '"' :: escBody s ++ ['"'] else s

/-- First pass of `unescapeString`: `.replace(/\\"/g, '"')`, left to right,
non-overlapping. -/
def replaceQuotePass : Str → Str
  | [] => []
  | '\\' :: '"' :: r2 => '"' :: replaceQuotePass r2
  | c :: r => c :: replaceQuotePass r

/-- Second pass of `unescapeString`: `.replace(/\\\\/g, '\\')`, left to
right, non-overlapping. -/
def replaceBackslashPass : Str → Str
  | [] => []
  | '\\' :: '\\' :: r2 => '\\' :: replaceBackslashPass r2
  | c :: r => c :: replaceBackslashPass r

/-- `utils.unescapeString`: strip surrounding quotes when both are present,
then undo the quote escapes, then the backslash escapes. -/
def unescapeString (s : Str) : Str :=
  let s' := if headIs '"' s && lastIs '"' s then (s.drop 1).dropLast else s
  replaceBackslashPass (replaceQuotePass s')

/-- Lexicographic order on strings by character code, the default JS
`Array.prototype.sort()` comparison for `Object.keys(...).sort()`. -/
def lexLe : Str → Str → Bool
  | [], _ => true
  | _ :: _, [] => false
  | a :: as, b :: bs =>
      if a = b then lexLe as bs else a < b

/-- Stable insertion (ascending, ties keep existing order) for `lexLe`. -/
def insertLex (s : Str) : List Str → List Str
  | [] => [s]
  | t :: ts => if lexLe t s then t :: insertLex s ts else s :: t :: ts

/-- Stable sort of a string list with JS default comparison (`keys.sort()`). -/
def sortLex (l : List Str) : List Str :=
  l.foldl (fun acc s => insertLex s acc) []

/-- `utils.haveSameStructure`: a nonempty array of objects whose sorted key
lists all coincide. -/
def haveSameStructure (arr : List Json) : Bool :=
  match arr with
  | [] => false
  | first :: _ =>
      arr.all isObjectJ &&
      (match first with
       | .obj f0 =>
           let firstKeys := sortLex (keysOf f0)
           arr.all fun e =>
             match e with
             | .obj f =>
                 let keys := sortLex (keysOf f)
                 keys.length = firstKeys.length &&
                 (keys.zip firstKeys).all fun p => p.1 = p.2
             | _ => false
       | _ => false)

/-- `utils.allPrimitiveValues`: all elements are objects and every property
value of every element is primitive. -/
def allPrimitiveValues (arr : List Json) : Bool :=
  arr.all isObjectJ &&
  arr.all fun e =>
    match e with
    | .obj f => f.all fun p => isPrimitiveJ p.2
    | _ => false

/-- `utils.getCommonKeys`: the keys of the first object. -/
def getCommonKeys (arr : List Json) : List Str :=
  match arr with
  | .obj f :: _ => keysOf f
  | _ => []

/-- `utils.isAllPrimitives`: every element of the array is primitive. -/
def isAllPrimitives (arr : List Json) : Bool :=
  arr.all isPrimitiveJ

/-- `utils.countOccurrences` (worker; advances past each found occurrence,
fuel is the remaining length).  The source loops forever on an empty
substring; it is only ever called with the single-character delimiters. -/
def countOccGo : Nat → Str → Str → Nat
  | 0, _, _ => 0
  | _ + 1, _, [] => 0
  | f + 1, sub, s@(_ :: rest) =>
      if sub.isPrefixOf s then 1 + countOccGo f sub (s.drop sub.length)
      else countOccGo f sub rest

/-- `utils.countOccurrences`: non-overlapping occurrence count. -/
def countOccurrences (s sub : Str) : Nat :=
  if sub = [] then 0 else countOccGo s.length sub s

/-- Separator class of `utils.estimateTokens`'s split regex
`[\s,:|{}[\]()]+`. -/
def tokenSep (c : Char) : Bool :=
  jsWhite c || c = ',' || c = ':' || c = '|' || c = '{' || c = '}' ||
  c = '[' || c = ']' || c = '(' || c = ')'

/-- `utils.estimateTokens`: number of maximal runs of non-separator
characters (`split(...).filter(Boolean).length`). -/
def estimateTokens : Str → Nat
  | [] => 0
  | c :: r =>
      if tokenSep c then estimateTokens r
      else match r with
        | r0 :: _ => if tokenSep r0 then 1 + estimateTokens r else estimateTokens r
        | [] => 1

/-- `utils.indent`: `level * spaces` spaces. -/
def indentStr (level spaces : Nat) : Str :=
  List.replicate (level * spaces) ' '

/-! ### `references.ts` — the reference manager

A `ReferenceManager` is freshly constructed for every `encode` call (the
convenience `encode` function builds a new `CTFEncoder`), so its mutable
tables are modelled as the pure result of `build`. -/

/-- A kept entry of the reference table (`ReferenceEntry` of `types.ts`;
the `id` field is assigned after sorting, so it is omitted here). -/
structure RefEntry where
  value : Str
  occurrences : Nat
  savings : Int

/-- `ReferenceManager.calculateSavings`: inline cost `len·count` minus
reference cost `2·count + len + 3`. -/
def calculateSavings (value : Str) (count : Nat) : Int :=
  (value.length * count : Int) - (2 * count + value.length + 3)

/-- Bump the count of string `s` in the insertion-ordered count list
(`valueCounts.set(data, (valueCounts.get(data) || 0) + 1)`). -/
def bumpCount (s : Str) : List (Str × Nat) → List (Str × Nat)
  | [] => [(s, 1)]
  | (t, c) :: r => if t = s then (t, c + 1) :: r else (t, c) :: bumpCount s r

mutual
/-- `ReferenceManager.countStrings`: count every string leaf (object
values, array elements, nested) into the occurrence list. -/
def countStrings (v : Json) (acc : List (Str × Nat)) : List (Str × Nat) :=
  match v with
  | .str s => bumpCount s acc
  | .arr l => countStringsList l acc
  | .obj f => countStringsFields f acc
  | _ => acc

/-- `countStrings` over the elements of an array, in order. -/
def countStringsList (l : List Json) (acc : List (Str × Nat)) : List (Str × Nat) :=
  match l with
  | [] => acc
  | x :: xs => countStringsList xs (countStrings x acc)

/-- `countStrings` over the property values of an object, in order. -/
def countStringsFields (f : List (Str × Json)) (acc : List (Str × Nat)) :
    List (Str × Nat) :=
  match f with
  | [] => acc
  | (_, v) :: xs => countStringsFields xs (countStrings v acc)
end

/-- The filter of `ReferenceManager.build`: count and length meet the
thresholds and the savings meet `minSavings`. -/
def keepEntry (minOccurrences minLength minSavings : Nat) (s : Str) (c : Nat) : Bool :=
  minOccurrences ≤ c && minLength ≤ s.length &&
  (minSavings : Int) ≤ calculateSavings s c

/-- Stable descending insertion by `savings` (ties keep existing order),
the effect of the stable `entries.sort((a, b) => b.savings - a.savings)`. -/
def insertBySavings (e : RefEntry) : List RefEntry → List RefEntry
  | [] => [e]
  | x :: xs =>
      if x.savings < e.savings then e :: x :: xs else x :: insertBySavings e xs

/-- Stable sort by descending savings: elements are inserted in encounter
order, each after all already-placed entries with savings ≥ its own, so
ties keep the original (encounter) order, as JS's stable `sort` does. -/
def sortBySavings (l : List RefEntry) : List RefEntry :=
  l.foldl (fun acc e => insertBySavings e acc) []

/-- The kept entries of `ReferenceManager.build`, in encounter order. -/
def buildEntries (v : Json) (minOccurrences minLength minSavings : Nat) :
    List RefEntry :=
  (countStrings v []).filterMap fun p =>
    if keepEntry minOccurrences minLength minSavings p.1 p.2 then
      some ⟨p.1, p.2, calculateSavings p.1 p.2⟩
    else none

/-- `ReferenceManager.build`: the `references` map, value → id, with ids
`1, 2, …` assigned in order of descending savings. -/
def buildRefs (v : Json) (minOccurrences minLength minSavings : Nat) :
    List (Str × Nat) :=
  ((sortBySavings (buildEntries v minOccurrences minLength minSavings)).zip
      (List.range (sortBySavings (buildEntries v minOccurrences minLength minSavings)).length)).map
    fun p => (p.1.value, p.2 + 1)

/-- The reference table as built by `encode` (default thresholds 3/5/10). -/
def buildRefsDefault (v : Json) : List (Str × Nat) := buildRefs v 3 5 10

/-- `ReferenceManager.hasReference`. -/
def hasReference (refs : List (Str × Nat)) (value : Str) : Bool :=
  (alookup value refs).isSome

/-- `ReferenceManager.getReference` (the id for a value). -/
def getReference (refs : List (Str × Nat)) (value : Str) : Option Nat :=
  alookup value refs

/-- `ReferenceManager.escapeValue`: quote a reference-definition value iff
it matches `[:|\t\n\r"^@]` or contains two consecutive spaces. -/
def refQuotingChar (c : Char) : Bool :=
  c = ':' || c = '|' || c = '\t' || c = '\n' || c = '\r' || c = '"' ||
  c = '^' || c = '@'

/-- The quoting condition of `ReferenceManager.escapeValue`. -/
def refNeedsQuoting (s : Str) : Bool :=
  s.any refQuotingChar || hasDoubleSpace s

/-- `ReferenceManager.escapeValue`. -/
def escapeValue (s : Str) : Str :=
  if refNeedsQuoting s then '"' :: escBody s ++ ['"'] else s

/-- Stable ascending insertion by id for `getDefinitions`' sort. -/
def insertById (e : Nat × Str) : List (Nat × Str) → List (Nat × Str)
  | [] => [e]
  | x :: xs => if x.1 ≤ e.1 then x :: insertById e xs else e :: x :: xs

/-- `ReferenceManager.getDefinitions`: the `^id=value` lines, sorted by id
ascending, values escaped with `escapeValue`. -/
def getDefinitions (refs : List (Str × Nat)) : List Str :=
  ((refs.map fun p => (p.2, p.1)).foldl (fun acc e => insertById e acc) []).map
    fun p => '^' :: natToChars p.1 ++ '=' :: escapeValue p.2

/-! ### `JSON.stringify` (used by the optimizer's delimiter census) -/

/-- JSON string escaping for `JSON.stringify` (the escapes arising for the
characters exercised here; other control characters, which JSON renders as
`\u00XX`, occur in no claim and are kept verbatim). -/
def jsonEscapeChar (c : Char) : Str :=
  if c = '"' then ['\\', '"']
  else if c = '\\' then ['\\', '\\']
  else if c = '\n' then ['\\', 'n']
  else if c = '\r' then ['\\', 'r']
  else if c = '\t' then ['\\', 't']
  else [c]

mutual
/-- `JSON.stringify` of a value (no spacing argument). -/
def jsonStringify : Json → Str
  | .null => "null".data
  | .bool true => "true".data
  | .bool false => "false".data
  | .num n => intToChars n
  | .str s => '"' :: s.flatMap jsonEscapeChar ++ ['"']
  | .arr l => '[' :: jsonStringifyList l ++ [']']
  | .obj f => '{' :: jsonStringifyFields f ++ ['}']

/-- Comma-joined renderings of array elements. -/
def jsonStringifyList : List Json → Str
  | [] => []
  | [x] => jsonStringify x
  | x :: xs => jsonStringify x ++ ',' :: jsonStringifyList xs

/-- Comma-joined `"key":value` renderings of object properties. -/
def jsonStringifyFields : List (Str × Json) → Str
  | [] => []
  | [(k, v)] => '"' :: k.flatMap jsonEscapeChar ++ '"' :: ':' :: jsonStringify v
  | (k, v) :: xs =>
      '"' :: k.flatMap jsonEscapeChar ++ '"' :: ':' :: jsonStringify v ++
        ',' :: jsonStringifyFields xs
end

/-! ### `optimizer.ts` -/

/-- The `DataAnalysis` record (`types.ts`); the delimiter-frequency map has
exactly the keys `|`, `,`, `\t`, modelled as three counters. -/
structure DataAnalysis where
  totalArrays : Nat := 0
  tabularCandidates : Nat := 0
  columnarCandidates : Nat := 0
  repeatedValues : List (Str × Nat) := []
  estimatedTokens : Nat := 0
  freqPipe : Nat := 0
  freqComma : Nat := 0
  freqTab : Nat := 0

/-- Property read `obj[key]` on an object element (guarded by
`haveSameStructure` in the source, so the key is always present there; the
`.null` default is unreachable under those guards). -/
def getField (k : Str) : Json → Json
  | .obj f => (alookup k f).getD .null
  | _ => .null

/-- Number of distinct strings in a list (JS `new Set(values).size`). -/
def distinctCount (l : List Str) : Nat :=
  (l.foldl (fun acc s => if acc.contains s then acc else acc ++ [s]) []).length

/-- The per-field repetition test shared by `Optimizer.isColumnarCandidate`
and `CTFEncoder.shouldUseColumnar`: some field's stringified values have
`1 − distinct/length > 0.3`, i.e. `10·distinct < 7·length`.  (The JS
comparison is on exact rationals here; double rounding exactly at the 30%
boundary is not modelled.) -/
def hasRepetitiveField (arr : List Json) : Bool :=
  (getCommonKeys arr).any fun k =>
    let values := arr.map fun e => jsStringPrim (getField k e)
    10 * distinctCount values < 7 * values.length

/-- `Optimizer.isTabularCandidate`: length ≥ 3, uniform keys, primitive
values. -/
def isTabularCandidate (arr : List Json) : Bool :=
  3 ≤ arr.length && haveSameStructure arr && allPrimitiveValues arr

/-- `Optimizer.isColumnarCandidate`: length ≥ 1000, uniform keys, primitive
values, and some field over 30% repetitive. -/
def isColumnarCandidate (arr : List Json) : Bool :=
  1000 ≤ arr.length && haveSameStructure arr && allPrimitiveValues arr &&
  hasRepetitiveField arr

/-- `Optimizer.analyzeDelimiterFrequency`: raw counts of `|`, `,`, `\t` in
the JSON rendering of the array. -/
def addDelimFrequency (arr : List Json) (a : DataAnalysis) : DataAnalysis :=
  let s := jsonStringify (.arr arr)
  { a with
    freqPipe := a.freqPipe + countOccurrences s ['|'],
    freqComma := a.freqComma + countOccurrences s [','],
    freqTab := a.freqTab + countOccurrences s ['\t'] }

mutual
/-- `Optimizer.analyzeValue`: single recursive traversal updating the
analysis record (arrays: census + element recursion + delimiter census;
objects: value recursion; strings: repetition census). -/
def analyzeValue (v : Json) (a : DataAnalysis) : DataAnalysis :=
  match v with
  | .arr l =>
      let a1 := { a with
        totalArrays := a.totalArrays + 1,
        tabularCandidates := a.tabularCandidates + (if isTabularCandidate l then 1 else 0),
        columnarCandidates := a.columnarCandidates + (if isColumnarCandidate l then 1 else 0) }
      addDelimFrequency l (analyzeValueList l a1)
  | .obj f => analyzeValueFields f a
  | .str s => { a with repeatedValues := bumpCount s a.repeatedValues }
  | _ => a

/-- `analyzeValue` over array elements, in order. -/
def analyzeValueList (l : List Json) (a : DataAnalysis) : DataAnalysis :=
  match l with
  | [] => a
  | x :: xs => analyzeValueList xs (analyzeValue x a)

/-- `analyzeValue` over object property values, in order. -/
def analyzeValueFields (f : List (Str × Json)) (a : DataAnalysis) : DataAnalysis :=
  match f with
  | [] => a
  | (_, v) :: xs => analyzeValueFields xs (analyzeValue v a)
end

/-- `Optimizer.analyze`: traverse, then estimate tokens from the JSON
rendering of the whole value. -/
def analyze (v : Json) : DataAnalysis :=
  let a := analyzeValue v {}
  { a with estimatedTokens := estimateTokens (jsonStringify v) }

/-- `Optimizer.chooseDelimiter`: the delimiter with the minimum tallied
frequency, iterating `|`, `,`, `\t` in map order with strict improvement;
all-equal frequencies yield `|`. -/
def chooseDelimiter (a : DataAnalysis) : Char :=
  let m1 : Char × Nat := ('|', a.freqPipe)
  let m2 : Char × Nat := if a.freqComma < m1.2 then (',', a.freqComma) else m1
  let m3 : Char × Nat := if a.freqTab < m2.2 then ('\t', a.freqTab) else m2
  if a.freqPipe = a.freqTab && a.freqPipe = a.freqComma then '|' else m3.1

/-- `Optimizer.estimateReferenceSavings`: over strings meeting the count
and length thresholds, sum the positive values of
`(count − 1)·len − 2·count`. -/
def estimateReferenceSavings (a : DataAnalysis) (minOccurrences : Nat := 3)
    (minLength : Nat := 5) : Int :=
  a.repeatedValues.foldl
    (fun total p =>
      if minOccurrences ≤ p.2 && minLength ≤ p.1.length then
        let savings : Int := (p.2 - 1 : Int) * p.1.length - p.2 * 2
        if 0 < savings then total + savings else total
      else total)
    0

/-- `Optimizer.recommendStrategy` (reporting only; exercised by no claim's
counterexample). -/
def recommendStrategy (a : DataAnalysis) : Str :=
  if 0 < a.columnarCandidates then "columnar".data
  else if 0 < a.totalArrays && a.totalArrays < 2 * a.tabularCandidates then
    "tabular-heavy".data
  else "balanced".data

/-! ### `encoder.ts` -/

/-- A `boolean | 'auto'` option (`references`, `columnar`). -/
inductive TriOpt where
  | on
  | off
  | auto
deriving DecidableEq

/-- `EncodeOptions` (`types.ts`), with defaults as in the `CTFEncoder`
constructor.  `delimiter` is `none` for `'auto'`, otherwise the explicit
character.  The `schemas` and `optimize` options are never read by the
encoder and are omitted. -/
structure EncodeOptions where
  indentW : Nat := 2
  delimiter : Option Char := none
  references : TriOpt := .auto
  columnar : TriOpt := .auto

/-- The encoder's per-call state after setup: options, the resolved
delimiter (`usedDelimiter`), and the built reference table. -/
structure EncCtx where
  opts : EncodeOptions
  delim : Char
  refs : List (Str × Nat)

/-- `CTFEncoder.formatValue`: primitive rendering for row/inline/column
cells (`_`, `+`/`-`, decimal, reference or escaped string; containers,
unreachable for tabular data, fall back to `JSON.stringify`). -/
def formatValue (refs : List (Str × Nat)) : Json → Str
  | .null => ['_']
  | .bool true => ['+']
  | .bool false => ['-']
  | .num n => intToChars n
  | .str s =>
      match alookup s refs with
      | some id => '^' :: natToChars id
      | none => escapeString s
  | v => jsonStringify v

/-- `CTFEncoder.shouldUseTabular`: length ≥ 3, uniform keys, primitive
values. -/
def shouldUseTabular (arr : List Json) : Bool :=
  3 ≤ arr.length && haveSameStructure arr && allPrimitiveValues arr

/-- `CTFEncoder.shouldUseColumnar`: columnar not disabled, length ≥ 1000,
uniform keys, primitive values, and some field over 30% repetitive. -/
def shouldUseColumnar (opts : EncodeOptions) (arr : List Json) : Bool :=
  if opts.columnar = .off then false
  else
    1000 ≤ arr.length && haveSameStructure arr && allPrimitiveValues arr &&
    hasRepetitiveField arr

/-- Integer extraction for `encodeColumn`'s all-number check. -/
def asNum : Json → Option Int
  | .num n => some n
  | _ => none

/-- `CTFEncoder.encodeColumn`: `[min..max]` for a contiguous ascending
numeric run, run-length `["v"=c,…]` when distinct values are under 30% of
the length, else a plain comma list of formatted values.  (An empty column
is unreachable: columnar arrays have ≥ 1000 rows.) -/
def encodeColumn (refs : List (Str × Nat)) (values : List Json) : Str :=
  let rle : Str :=
    let counts := values.foldl (fun acc v => bumpCount (jsStringPrim v) acc) []
    if 10 * counts.length < 3 * values.length then
      '[' ::
        ((counts.map fun p => '"' :: p.1 ++ '"' :: '=' :: natToChars p.2).intersperse
          [',']).flatten ++ [']']
    else
      '[' :: ((values.map (formatValue refs)).intersperse [',']).flatten ++ [']']
  match values.mapM asNum with
  | some nums =>
      match nums with
      | [] => rle
      | n0 :: rest =>
          let mn := rest.foldl min n0
          let mx := rest.foldl max n0
          if (nums.zip (List.range nums.length)).all fun p => p.1 = mn + p.2 then
            '[' :: intToChars mn ++ '.' :: '.' :: intToChars mx ++ [']']
          else rle
  | none => rle

/-- `CTFEncoder.encodeTabular`: header
`key@<n><delim><f1,…,fk>:` then one row of delimiter-joined formatted
values per element. -/
def encodeTabular (ctx : EncCtx) (arr : List Json) (key : Str) (depth : Nat) :
    List Str :=
  let pre := indentStr depth ctx.opts.indentW
  let keys := getCommonKeys arr
  let header := pre ++ key ++ '@' :: natToChars arr.length ++
    ctx.delim :: (keys.intersperse [',']).flatten ++ [':']
  header :: arr.map fun o =>
    pre ++ ((keys.map fun k => formatValue ctx.refs (getField k o)).intersperse
      [ctx.delim]).flatten

/-- `CTFEncoder.encodeColumnar`: header `key@<n>||<f1,…,fk>:` then one
`|field:<column>` line per field. -/
def encodeColumnar (ctx : EncCtx) (arr : List Json) (key : Str) (depth : Nat) :
    List Str :=
  let pre := indentStr depth ctx.opts.indentW
  let keys := getCommonKeys arr
  let header := pre ++ key ++ '@' :: natToChars arr.length ++
    '|' :: '|' :: (keys.intersperse [',']).flatten ++ [':']
  header :: keys.map fun k =>
    pre ++ '|' :: k ++ ':' :: encodeColumn ctx.refs (arr.map (getField k))

/-- `CTFEncoder.encodeInlineArray`: `key:[v1 v2 …]`, space-joined. -/
def encodeInlineArray (ctx : EncCtx) (arr : List Json) (key : Str)
    (depth : Nat) : List Str :=
  let pre := indentStr depth ctx.opts.indentW
  [pre ++ key ++ ':' :: '[' ::
    ((arr.map (formatValue ctx.refs)).intersperse [' ']).flatten ++ [']']]

mutual
/-- `CTFEncoder.encodeValue`: dispatch on the value's shape.  The array
case inlines `CTFEncoder.encodeArray`'s strategy dispatch (`key@0:` for
empty arrays, else the first matching strategy: columnar, tabular, inline,
list); the standalone `encodeArray` below restates it and is definitionally
equal. -/
def encodeValue (ctx : EncCtx) (v : Json) (key : Str) (depth : Nat) : List Str :=
  match v with
  | .null => [indentStr depth ctx.opts.indentW ++ key ++ [':', '_']]
  | .bool true => [indentStr depth ctx.opts.indentW ++ key ++ [':', '+']]
  | .bool false => [indentStr depth ctx.opts.indentW ++ key ++ [':', '-']]
  | .num n => [indentStr depth ctx.opts.indentW ++ key ++ ':' :: intToChars n]
  | .str s =>
      [indentStr depth ctx.opts.indentW ++ key ++ ':' ::
        (match alookup s ctx.refs with
         | some id => '^' :: natToChars id
         | none => escapeString s)]
  | .arr [] => [indentStr depth ctx.opts.indentW ++ key ++ ['@', '0', ':']]
  | .arr l =>
      if shouldUseColumnar ctx.opts l then encodeColumnar ctx l key depth
      else if shouldUseTabular l then encodeTabular ctx l key depth
      else if isAllPrimitives l then encodeInlineArray ctx l key depth
      else
        (indentStr depth ctx.opts.indentW ++ key ++ '@' ::
          natToChars l.length ++ [':']) :: encodeListItems ctx l (depth + 1)
  | .obj f =>
      if key = [] then encodeObjProps ctx f depth
      else (indentStr depth ctx.opts.indentW ++ key ++ [':']) ::
        encodeObjProps ctx f (depth + 1)

/-- `CTFEncoder.encodeListArray`'s item loop: each element under the
synthetic key `-` at depth+1. -/
def encodeListItems (ctx : EncCtx) (arr : List Json) (depth : Nat) : List Str :=
  match arr with
  | [] => []
  | x :: xs => encodeValue ctx x ['-'] depth ++ encodeListItems ctx xs depth

/-- `CTFEncoder.encodeObject`'s property loop, in insertion order. -/
def encodeObjProps (ctx : EncCtx) (f : List (Str × Json)) (depth : Nat) :
    List Str :=
  match f with
  | [] => []
  | (k, v) :: xs => encodeValue ctx v k depth ++ encodeObjProps ctx xs depth
end

/-- `CTFEncoder.encodeArray`, stated standalone: `key@0:` for empty arrays,
else the first matching strategy: columnar, tabular, inline (all
primitives), list fallback.  `encodeValue` on `.arr` unfolds to exactly
this (see `encodeValue_arr`). -/
def encodeArray (ctx : EncCtx) (arr : List Json) (key : Str) (depth : Nat) :
    List Str :=
  match arr with
  | [] => [indentStr depth ctx.opts.indentW ++ key ++ ['@', '0', ':']]
  | l =>
      if shouldUseColumnar ctx.opts l then encodeColumnar ctx l key depth
      else if shouldUseTabular l then encodeTabular ctx l key depth
      else if isAllPrimitives l then encodeInlineArray ctx l key depth
      else
        (indentStr depth ctx.opts.indentW ++ key ++ '@' ::
          natToChars l.length ++ [':']) :: encodeListItems ctx l (depth + 1)

/-- The lines produced by `CTFEncoder.encode`: analysis, delimiter
resolution, optional reference build, the definition block followed by one
blank separator when nonempty, then the value (bare arrays wrapped under
the synthetic key `data`). -/
def encodeLines (v : Json) (opts : EncodeOptions) : List Str :=
  let analysis := analyze v
  let delim := match opts.delimiter with
    | some c => c
    | none => chooseDelimiter analysis
  let useRefs := opts.references = .on ||
    (opts.references = .auto && 50 < estimateReferenceSavings analysis)
  let refs := if useRefs then buildRefsDefault v else []
  let ctx : EncCtx := ⟨opts, delim, refs⟩
  let defs := if 0 < refs.length then getDefinitions refs ++ [[]] else []
  let body :=
    if isArrayJ v then encodeValue ctx v "data".data 0
    else encodeValue ctx v [] 0
  defs ++ body

/-- `encode`: the joined CTF text. -/
def encode (v : Json) (opts : EncodeOptions) : Str :=
  joinNL (encodeLines v opts)

/-- `encode` with all-default options. -/
def encodeDefault (v : Json) : Str :=
  encode v {}

/-! ### `decoder.ts` -/

/-- The decoder's error taxonomy (`CTFParseError` / `CTFValidationError` of
`types.ts`), carrying the same data as the exception messages:
`expectedColon line` ("Expected ':' in line"), `expectedRows count found`
(the validation error "Expected count rows, but only found found"),
`expectedDataRow row count line` ("Expected data row row of count"),
`fieldCountMismatch expected got line` ("Expected expected values, got
got"), `undefinedReference id` ("Undefined reference").  `fuel` is an
artifact of the fuel-based embedding, never returned for the fuel supply
`decode` uses. -/
inductive CTFError where
  | expectedColon (line : Nat)
  | expectedRows (count found : Nat)
  | expectedDataRow (row count line : Nat)
  | fieldCountMismatch (expected got line : Nat)
  | undefinedReference (id : Option Int)
  | fuel
deriving DecidableEq

/-- Whether an error is the `CTFValidationError` (all others are
`CTFParseError`s). -/
def CTFError.isValidation : CTFError → Bool
  | .expectedRows _ _ => true
  | _ => false

/-- `DecodeOptions` (`types.ts`) with the `CTFDecoder` constructor's
defaults.  `typeHints` is never read by the decoder. -/
structure DecodeOptions where
  strict : Bool := true
  validate : Bool := true
  typeHints : Bool := true

/-- The fixed part of the decoder's `ParseContext`: the (right-trimmed)
lines, the reference map from phase 1, and the options.  The mutable
`currentLine` is threaded explicitly. -/
structure DecCtx where
  lines : List Str
  refs : List (Nat × Str)
  opts : DecodeOptions

/-- `CTFDecoder.getIndentLevel`: leading spaces count 1, leading tabs
count 2, stop at the first other character. -/
def indentLevel : Str → Nat
  | [] => 0
  | c :: r =>
      if c = ' ' then 1 + indentLevel r
      else if c = '\t' then 2 + indentLevel r
      else 0

/-- `CTFDecoder.splitByDelimiter`'s loop state machine: `cur` is the field
being accumulated, `inQ` the in-quotes flag, `esc` the escape-next flag.
The final field is pushed only when nonempty. -/
def splitByDelimGo (d : Char) : Str → Str → Bool → Bool → List Str
  | [], cur, _, _ => if cur = [] then [] else [cur]
  | c :: rest, cur, inQ, esc =>
      if esc then splitByDelimGo d rest (cur ++ [c]) inQ false
      else if c = '\\' then splitByDelimGo d rest (cur ++ [c]) inQ true
      else if c = '"' then splitByDelimGo d rest (cur ++ [c]) (!inQ) esc
      else if !inQ && c = d then cur :: splitByDelimGo d rest [] inQ esc
      else splitByDelimGo d rest (cur ++ [c]) inQ esc

/-- `CTFDecoder.splitByDelimiter`: quote-aware, backslash-aware split. -/
def splitByDelimiter (s : Str) (d : Char) : List Str :=
  splitByDelimGo d s [] false false

/-- Verification helper (not in the source): the same state machine but
always pushing the final accumulated field, so its results are the
delimiter-separated positions of the row; `splitByDelimiter` differs only
in dropping a trailing empty field. -/
def splitPositionsGo (d : Char) : Str → Str → Bool → Bool → List Str
  | [], cur, _, _ => [cur]
  | c :: rest, cur, inQ, esc =>
      if esc then splitPositionsGo d rest (cur ++ [c]) inQ false
      else if c = '\\' then splitPositionsGo d rest (cur ++ [c]) inQ true
      else if c = '"' then splitPositionsGo d rest (cur ++ [c]) (!inQ) esc
      else if !inQ && c = d then cur :: splitPositionsGo d rest [] inQ esc
      else splitPositionsGo d rest (cur ++ [c]) inQ esc

/-- All delimiter-separated positions of a row (verification helper). -/
def splitPositions (s : Str) (d : Char) : List Str :=
  splitPositionsGo d s [] false false

/-- The quote/escape state of the splitter after consuming a prefix
(verification helper for stating "ends with an unquoted, unescaped
delimiter"); the state transitions are those of `splitByDelimGo` and do
not depend on the delimiter. -/
def scanQE : Str → Bool × Bool → Bool × Bool
  | [], st => st
  | c :: rest, (inQ, esc) =>
      scanQE rest
        (if esc then (inQ, false)
         else if c = '\\' then (inQ, true)
         else if c = '"' then (!inQ, esc)
         else (inQ, esc))

/-! #### The `Number(...)` grammar (`parsePrimitive`'s numeric branch) -/

/-- Hexadecimal digit. -/
def isHexDigitC (c : Char) : Bool :=
  isDigitC c || ('a' ≤ c && c ≤ 'f') || ('A' ≤ c && c ≤ 'F')

/-- Octal digit. -/
def isOctDigitC (c : Char) : Bool := '0' ≤ c && c ≤ '7'

/-- Binary digit. -/
def isBinDigitC (c : Char) : Bool := c = '0' || c = '1'

/-- Exponent-part acceptance: nothing, or `e`/`E` followed by an optionally
signed nonempty digit run ending the token. -/
def signedDigits : Str → Bool
  | '+' :: r => r ≠ [] && r.all isDigitC
  | '-' :: r => r ≠ [] && r.all isDigitC
  | r => r ≠ [] && r.all isDigitC

/-- Tail after the mantissa: empty or an exponent part. -/
def expPart : Str → Bool
  | [] => true
  | 'e' :: r => signedDigits r
  | 'E' :: r => signedDigits r
  | _ => false

/-- Unsigned decimal literal: `digits [. digits] [exp]` or `. digits
[exp]`. -/
def decimalForm (l : Str) : Bool :=
  let ds := l.takeWhile isDigitC
  if ds = [] then
    match l with
    | '.' :: r2 =>
        let ds2 := r2.takeWhile isDigitC
        ds2 ≠ [] && expPart (r2.drop ds2.length)
    | _ => false
  else
    match l.drop ds.length with
    | '.' :: r2 => expPart (r3 r2)
    | r1 => expPart r1
where
  /-- Skip the optional fraction digits. -/
  r3 (r2 : Str) : Str := r2.drop (r2.takeWhile isDigitC).length

/-- Unsigned radix literal: `0x`/`0o`/`0b` with a nonempty digit run. -/
def radixForm : Str → Bool
  | '0' :: x :: r =>
      if x = 'x' || x = 'X' then r ≠ [] && r.all isHexDigitC
      else if x = 'o' || x = 'O' then r ≠ [] && r.all isOctDigitC
      else if x = 'b' || x = 'B' then r ≠ [] && r.all isBinDigitC
      else false
  | _ => false

/-- Signed body: `Infinity` or a decimal literal. -/
def decBody (l : Str) : Bool := l = "Infinity".data || decimalForm l

/-- The set of (already trimmed) strings JS `Number(...)` maps to a
non-`NaN` number: an optional sign with `Infinity`/decimal body, or an
unsigned radix literal. -/
def jsNumeric : Str → Bool
  | [] => false
  | '+' :: r => decBody r
  | '-' :: r => decBody r
  | l => decBody l || radixForm l

/-- Digit value for a radix literal. -/
def hexDigitVal (c : Char) : Nat :=
  if isDigitC c then c.toNat - 48
  else if 'a' ≤ c && c ≤ 'f' then c.toNat - 87
  else c.toNat - 55

/-- Value of an unsigned radix literal. -/
def radixVal : Str → Nat
  | '0' :: x :: r =>
      let base := if x = 'x' || x = 'X' then 16 else if x = 'o' || x = 'O' then 8 else 2
      r.foldl (fun a c => a * base + hexDigitVal c) 0
  | _ => 0

/-- Unsigned numeric value: the integer fragment (leading digit run;
`Infinity`, fractions and exponents are outside the integer fragment any
claim exercises, see the header note). -/
def decValInt (l : Str) : Int :=
  (natOfDigits (l.takeWhile isDigitC) : Int)

/-- The numeric value of a `jsNumeric` token, on the integer fragment. -/
def jsNumValue : Str → Int
  | '+' :: r => decValInt r
  | '-' :: r => - decValInt r
  | l => if radixForm l then (radixVal l : Int) else decValInt l

/-! #### `parsePrimitive` and the reference prepass -/

/-- JS `parseInt(s, 10)`: skip leading whitespace, optional sign, then the
leading digit run; no digits means `NaN` (`none`). -/
def parseIntJS (l : Str) : Option Int :=
  let l' := trimStart l
  match l' with
  | '+' :: r =>
      let ds := r.takeWhile isDigitC
      if ds = [] then none else some (natOfDigits ds : Int)
  | '-' :: r =>
      let ds := r.takeWhile isDigitC
      if ds = [] then none else some (-(natOfDigits ds : Int))
  | r =>
      let ds := r.takeWhile isDigitC
      if ds = [] then none else some (natOfDigits ds : Int)

/-- Lookup in the reference map (`Map<number, string>`). -/
def nlookup (k : Nat) : List (Nat × Str) → Option Str
  | [] => none
  | (k', v) :: r => if k' = k then some v else nlookup k r

/-- Insertion-ordered update of the reference map. -/
def upsertNat (k : Nat) (v : Str) : List (Nat × Str) → List (Nat × Str)
  | [] => [(k, v)]
  | (k', v') :: r => if k' = k then (k, v) :: r else (k', v') :: upsertNat k v r

/-- `CTFDecoder.parsePrimitive`: trim, then `_`/`+`/`-`, reference,
bracketed inline array (whitespace-split, recursive), quoted string,
number, raw string — in that order.  `fuel` bounds the inline-array
recursion; tokens shrink strictly, so `value.length + 1` suffices. -/
def parsePrimitiveF : Nat → Str → List (Nat × Str) → Except CTFError Json
  | 0, _, _ => .error .fuel
  | f + 1, value, refs =>
      let v := trim value
      if v = ['_'] then .ok .null
      else if v = ['+'] then .ok (.bool true)
      else if v = ['-'] then .ok (.bool false)
      else if headIs '^' v then
        match parseIntJS (v.drop 1) with
        | none => .error (.undefinedReference none)
        | some i =>
            if i < 0 then .error (.undefinedReference (some i))
            else
              match nlookup i.toNat refs with
              | some s => .ok (.str s)
              | none => .error (.undefinedReference (some i))
      else if headIs '[' v && lastIs ']' v then
        let content := trim ((v.drop 1).dropLast)
        if content = [] then .ok (.arr [])
        else do
          let vals ← (splitWhiteRuns content).mapM fun t => parsePrimitiveF f t refs
          .ok (.arr vals)
      else if headIs '"' v && lastIs '"' v then .ok (.str (unescapeString v))
      else if v ≠ [] && jsNumeric v then .ok (.num (jsNumValue v))
      else .ok (.str v)

/-- Reference-definition line match, `^\^(\d+)=(.+)$` (the value may not
contain `\r`, which `.` does not match), with the quoted-value unescape of
`parseReferences`. -/
def refLine (l : Str) : Option (Nat × Str) :=
  match l with
  | '^' :: r =>
      let ds := r.takeWhile isDigitC
      if ds = [] then none
      else
        match r.drop ds.length with
        | '=' :: v =>
            if v ≠ [] && v.all (fun c => c ≠ '\r') then
              some (natOfDigits ds,
                if headIs '"' v && lastIs '"' v then unescapeString v else v)
            else none
        | _ => none
  | _ => none

/-- `CTFDecoder.parseReferences` (phase 1): skip blank lines, record
consecutive reference definitions, stop at the first other line.  Returns
the reference map and the number of lines consumed. -/
def parseRefsGo : List Str → List (Nat × Str) → List (Nat × Str) × Nat
  | [], refs => (refs, 0)
  | l :: rest, refs =>
      if trim l = [] then
        let (r, n) := parseRefsGo rest refs
        (r, n + 1)
      else
        match refLine l with
        | some (id, v) =>
            let (r, n) := parseRefsGo rest (upsertNat id v refs)
            (r, n + 1)
        | none => (refs, 0)

/-- Array-header match on the key part,
`^(.+?)@(\d+)(\|{1,2})(.*?)$`: the leftmost `@` with a nonempty key before
it, a nonempty digit run after it, then one or two pipes (two meaning
columnar) and the field list; `.` matches no `\r` (worker, scanning split
points left to right as the lazy `(.+?)` does). -/
def matchHeaderGo : Str → Str → Option (Str × Nat × Bool × Str)
  | _, [] => none
  | acc, '@' :: rest =>
      (let ds := rest.takeWhile isDigitC
       if acc = [] || ds = [] then none
       else
         match rest.drop ds.length with
         | '|' :: '|' :: fs => some (acc, natOfDigits ds, true, fs)
         | '|' :: fs => some (acc, natOfDigits ds, false, fs)
         | _ => none) <|>
      matchHeaderGo (acc ++ ['@']) rest
  | acc, c :: rest => matchHeaderGo (acc ++ [c]) rest

/-- Array-header match on the key part (`none` when the header regex does
not match, e.g. for `key@0` or a comma/tab-delimited header, which have no
pipe). -/
def matchArrayHeader (kp : Str) : Option (Str × Nat × Bool × Str) :=
  if kp.any (fun c => c = '\r') then none else matchHeaderGo [] kp

/-- One row object: zip the field names over the split cells by index,
missing cells read as `''` (`values[j] || ''`), each cell through
`parsePrimitive`, assignments in field order. -/
def rowObjGo (refs : List (Nat × Str)) (values : List Str) :
    Nat → List Str → List (Str × Json) → Except CTFError (List (Str × Json))
  | _, [], acc => .ok acc
  | j, fkey :: fs, acc => do
      let cell := values.getD j []
      let v ← parsePrimitiveF (cell.length + 1) cell refs
      rowObjGo refs values (j + 1) fs (upsert fkey v acc)

/-- `CTFDecoder.parseTabularArray`'s row loop.  Per iteration: done when
`count` rows are read; validation error (or early stop when `validate` is
off) on line exhaustion; blank rows are a parse error in strict mode and
skipped without counting otherwise; a field-count mismatch is a parse
error in strict mode; otherwise the row object is appended.  Returns the
rows and the next line position. -/
def parseTabRows (ctx : DecCtx) :
    Nat → Nat → Nat → Nat → List Str → Char → List Json →
    Except CTFError (List Json × Nat)
  | 0, _, _, _, _, _, _ => .error .fuel
  | f + 1, pos, i, count, fields, d, rows =>
      if count ≤ i then .ok (rows, pos)
      else if ctx.lines.length ≤ pos then
        if ctx.opts.validate then .error (.expectedRows count i)
        else .ok (rows, pos)
      else
        let line := ctx.lines.getD pos []
        let trimmed := trim line
        if trimmed = [] then
          if ctx.opts.strict then .error (.expectedDataRow (i + 1) count (pos + 1))
          else parseTabRows ctx f (pos + 1) i count fields d rows
        else
          let values := splitByDelimiter trimmed d
          if values.length ≠ fields.length && ctx.opts.strict then
            .error (.fieldCountMismatch fields.length values.length (pos + 1))
          else do
            let o ← rowObjGo ctx.refs values 0 fields []
            parseTabRows ctx f (pos + 1) (i + 1) count fields d (rows ++ [.obj o])

/-- Column-definition line match, `^\|(.+?):(.+)$`: a pipe, then the
(nonempty) field up to the first viable colon, then nonempty data;
`.` matches no `\r`. -/
def colMatch (l : Str) : Option (Str × Str) :=
  match l with
  | '|' :: c :: rest =>
      if (c :: rest).any (fun ch => ch = '\r') then none
      else
        match splitAtFirst ':' rest with
        | some (a, b) => if b = [] then none else some (c :: a, b)
        | none => none
  | _ => none

/-- RLE-pair search body: accumulate the lazy `(.+?)` until a `"=` with at
least one digit follows (worker of `findRLE`). -/
def rleBody : Str → Str → Option (Str × Nat)
  | _, [] => none
  | acc, '"' :: '=' :: r =>
      let ds := r.takeWhile isDigitC
      if acc ≠ [] && ds ≠ [] then some (acc, natOfDigits ds)
      else rleBody (acc ++ ['"']) ('=' :: r)
  | acc, c :: r => rleBody (acc ++ [c]) r

/-- Unanchored match of `/"(.+?)"=(\d+)/` on an RLE part: first `"` from
which a body closes with `"=digits` (trailing characters are ignored, as
the unanchored regex does). -/
def findRLE : Str → Option (Str × Nat)
  | [] => none
  | '"' :: rest =>
      match rleBody [] rest with
      | some r => some r
      | none => findRLE rest
  | _ :: rest => findRLE rest

/-- Range-column match, `^\[(\d+)\.\.(\d+)\]$`, on the bracket content. -/
def rangeParse (inner : Str) : Option (Nat × Nat) :=
  let a := inner.takeWhile isDigitC
  if a = [] then none
  else
    match inner.drop a.length with
    | '.' :: '.' :: b =>
        if b ≠ [] && b.all isDigitC then some (natOfDigits a, natOfDigits b)
        else none
    | _ => none

/-- `CTFDecoder.parseColumnData`: `[a..b]` expands to the inclusive integer
range; bracketed content containing `=` expands matched `"v"=n` pairs
(unmatched parts are skipped); other bracketed content is a plain comma
list of cells; bare data is a single value. -/
def parseColumnData (data : Str) (refs : List (Nat × Str)) :
    Except CTFError (List Json) :=
  if headIs '[' data && lastIs ']' data then
    let inner := (data.drop 1).dropLast
    match rangeParse inner with
    | some (a, b) =>
        .ok (((List.range (b + 1 - a)).map fun i => Json.num ((a : Int) + i)))
    | none =>
        if inner = [] then
          -- `^\[(.+)\]$` needs nonempty content; `[]` falls to the bare case.
          (parsePrimitiveF (data.length + 1) data refs).map fun v => [v]
        else
          let parts := splitAll ',' inner
          if inner.contains '=' then
            parts.foldlM
              (fun acc part =>
                match findRLE part with
                | some (val, n) => do
                    let v ← parsePrimitiveF (val.length + 1) val refs
                    .ok (acc ++ List.replicate n v)
                | none => .ok acc)
              []
          else
            parts.mapM fun p => parsePrimitiveF ((trim p).length + 1) (trim p) refs
  else
    (parsePrimitiveF (data.length + 1) data refs).map fun v => [v]

/-- `CTFDecoder.parseColumnarArray`'s column-line loop: skip blanks, stop
at indentation ≤ the array's base indent or a non-column line, store each
parsed column (worker). -/
def parseColsGo (ctx : DecCtx) :
    Nat → Nat → Nat → List (Str × List Json) →
    Except CTFError (List (Str × List Json) × Nat)
  | 0, _, _, _ => .error .fuel
  | f + 1, pos, baseIndent, cols =>
      if ctx.lines.length ≤ pos then .ok (cols, pos)
      else
        let line := ctx.lines.getD pos []
        if trim line = [] then parseColsGo ctx f (pos + 1) baseIndent cols
        else if indentLevel line ≤ baseIndent then .ok (cols, pos)
        else
          match colMatch (trim line) with
          | none => .ok (cols, pos)
          | some (field, data) => do
              let colData ← parseColumnData data ctx.refs
              parseColsGo ctx f (pos + 1) baseIndent (upsert field colData cols)

/-- Columnar reconstruction: one object per row index, each declared field
taken from its column when that index exists (missing column or index ⇒
field omitted). -/
def colRows (count : Nat) (fields : List Str) (cols : List (Str × List Json)) :
    List Json :=
  (List.range count).map fun i =>
    .obj (fields.foldl
      (fun acc fkey =>
        match alookup fkey cols with
        | some colData =>
            match colData.get? i with
            | some v => upsert fkey v acc
            | none => acc
        | none => acc)
      [])

/-- The end-of-level step of `CTFDecoder.parseValue`: an empty accumulator
is `null`; a single key `-` with a JS-truthy value is unwrapped; otherwise
the accumulated object. -/
def finalizeLevel (acc : List (Str × Json)) : Json :=
  match acc with
  | [] => .null
  | [(k, v)] => if k = ['-'] && jsTruthy v then v else .obj acc
  | _ => .obj acc

/-- `CTFDecoder.parseValue` (phase 2): the recursive-descent loop.  Per
iteration: skip blanks; stop (returning the finalized accumulator and the
position) when lines are exhausted or the indentation differs from
`baseIndent` in either direction; split the line at the first `:` (missing
colon is a parse error); an array-header key dispatches to columnar or
tabular parsing; an empty value part descends into a nested level at
`indent + 1`; otherwise the value part is a primitive.  Results are stored
under the key with in-place overwrite. -/
def parseValueGo (ctx : DecCtx) :
    Nat → Nat → Nat → List (Str × Json) → Except CTFError (Json × Nat)
  | 0, _, _, _ => .error .fuel
  | f + 1, baseIndent, pos, acc =>
      if ctx.lines.length ≤ pos then .ok (finalizeLevel acc, pos)
      else
        let line := ctx.lines.getD pos []
        if trim line = [] then parseValueGo ctx f baseIndent (pos + 1) acc
        else
          let ind := indentLevel line
          if ind < baseIndent then .ok (finalizeLevel acc, pos)
          else if baseIndent < ind then .ok (finalizeLevel acc, pos)
          else
            let trimmed := trim line
            match splitAtFirst ':' trimmed with
            | none => .error (.expectedColon (pos + 1))
            | some (keyPart, valuePart) =>
                match matchArrayHeader keyPart with
                | some (key, count, isColumnar, fieldsStr) =>
                    let fields := splitAll ',' fieldsStr
                    if isColumnar then do
                      let (cols, posC) ← parseColsGo ctx f (pos + 1) ind []
                      parseValueGo ctx f baseIndent posC
                        (upsert key (.arr (colRows count fields cols)) acc)
                    else do
                      let (rows, posT) ←
                        parseTabRows ctx f (pos + 1) 0 count fields '|' []
                      parseValueGo ctx f baseIndent posT
                        (upsert key (.arr rows) acc)
                | none =>
                    if valuePart = [] then do
                      let (v, posN) ← parseValueGo ctx f (ind + 1) (pos + 1) []
                      parseValueGo ctx f baseIndent posN (upsert keyPart v acc)
                    else do
                      let v ← parsePrimitiveF (valuePart.length + 1) valuePart ctx.refs
                      parseValueGo ctx f baseIndent (pos + 1) (upsert keyPart v acc)

/-- `decode`: split on `\n`, right-trim each line, run the reference
prepass, then parse a value at base indent 0. -/
def decodeWith (opts : DecodeOptions) (input : Str) : Except CTFError Json :=
  let lines := (splitNL input).map trimEnd
  let (refs, p) := parseRefsGo lines []
  let ctx : DecCtx := ⟨lines, refs, opts⟩
  (parseValueGo ctx (lines.length + 1) 0 p []).map Prod.fst

/-- `decode` with all-default options (`strict`, `validate`, `typeHints`
all on). -/
def decodeDefault (input : Str) : Except CTFError Json :=
  decodeWith {} input

/-! ### Verification helpers and concrete test vectors -/

/-- The quoting triggers `needsQuoting` has but
`ReferenceManager.escapeValue`'s rule lacks: brackets, braces, comma, and
a leading digit. -/
def extraQuotingTrigger (s : Str) : Bool :=
  s.any (fun c => c = '[' || c = ']' || c = '{' || c = '}' || c = ',') ||
  (match s with
   | c :: _ => isDigitC c
   | [] => false)

/-- A nested object, `{user: {id: 123}}`. -/
def exNested : Json :=
  .obj [("user".data, .obj [("id".data, .num 123)])]

/-- The 23-character string of the reference-compression claim. -/
def exStr23 : Str := "abcdefghijklmnopqrstuvw".data

/-- An object whose string leaves are three occurrences of `exStr23`. -/
def exRefObj : Json :=
  .obj [("a".data, .str exStr23), ("b".data, .str exStr23),
    ("c".data, .str exStr23)]

/-- Three uniform objects whose last field holds the empty string. -/
def exEmptyLast : Json :=
  .obj [("users".data, .arr [
    .obj [("id".data, .num 1), ("name".data, .str "Alice".data),
      ("role".data, .str [])],
    .obj [("id".data, .num 2), ("name".data, .str "Bob".data),
      ("role".data, .str [])],
    .obj [("id".data, .num 3), ("name".data, .str "Charlie".data),
      ("role".data, .str [])]])]

set_option maxRecDepth 40000

/-! ## Claim theorems -/

/-- C1.  The claim states `decode(encode(v)) == v` for every value under
default options and each explicit delimiter.  The code contradicts the
repository's own round-trip tests (`tests/roundtrip.test.ts`, "preserves
nested objects"): the decoder's `parseValue` stops at any line indented
more than `baseIndent`, while a nested object's children are emitted at
`parent + 2` spaces against a nested base indent of `parent + 1`, so every
nested object decodes to `null`.  Evaluated here on `{user: {id: 123}}`:
the encoding is as documented, but decoding it yields `{user: null}`, a
value different from the input. -/
theorem C1_roundtrip_code_bug_eval :
    encodeDefault exNested = "user:\n  id:123".data ∧
    decodeDefault (encodeDefault exNested) =
      .ok (.obj [("user".data, .null)]) ∧
    Json.obj [("user".data, Json.null)] ≠ exNested := by
  refine ⟨by decide, rfl, ?_⟩
  intro h
  simp [exNested] at h

/-- C4.  The claim (and the API reference, which states that `validate`
"only applies when `strict` is `true`") says exhaustion raises a
validation error exactly when both `strict` and `validate` hold.  The code
checks only `validate`: with `strict := false` (and `validate` left at its
default `true`), decoding a tabular array declaring 2 rows with only 1 row
available still raises the validation error `Expected 2 rows, but only
found 1`; only turning `validate` off stops early with the rows read so
far. -/
theorem C4_validation_ignores_strict_eval :
    decodeWith { strict := false } "items@2|id:\n1".data =
      .error (.expectedRows 2 1) ∧
    (CTFError.expectedRows 2 1).isValidation = true ∧
    decodeWith { strict := false, validate := false } "items@2|id:\n1".data =
      .ok (.obj [("items".data, .arr [.obj [("id".data, .num 1)]])]) := by
  exact ⟨rfl, rfl, rfl⟩

/-- C2 counterexample.  The claim says a level whose accumulated object
has exactly one key `-` is unwrapped regardless of the value; but the
source's unwrap condition `result['-']` is a JS truthiness test, so the
falsy value `false` is not unwrapped: decoding `-:-` yields the one-key
object `{'-': false}`, not `false`. -/
theorem C2_counterexample :
    decodeDefault "-:-".data = .ok (.obj [("-".data, .bool false)]) ∧
    Json.obj [("-".data, Json.bool false)] ≠ Json.bool false := by
  refine ⟨rfl, ?_⟩
  intro h
  simp at h

/-! ### Helper lemmas on trimming and line splitting -/

theorem trimStart_idem (s : Str) : trimStart (trimStart s) = trimStart s := by
  induction s with
  | nil => rfl
  | cons c r ih =>
      by_cases h : jsWhite c
      · simp [trimStart, h, ih]
      · simp [trimStart, h]

theorem trimStart_length_le (s : Str) : (trimStart s).length ≤ s.length := by
  induction s with
  | nil => simp [trimStart]
  | cons c r ih =>
      by_cases h : jsWhite c
      · simp only [trimStart, h, if_pos]
        exact Nat.le_trans ih (Nat.le_succ _)
      · simp [trimStart, h]

theorem trimStart_eq_self_of_length (s : Str)
    (h : (trimStart s).length = s.length) : trimStart s = s := by
  cases s with
  | nil => rfl
  | cons c r =>
      by_cases hw : jsWhite c
      · exfalso
        simp only [trimStart, hw, if_pos] at h
        have := trimStart_length_le r
        simp [h] at this
      · simp [trimStart, hw]

theorem trimEnd_trimEnd (s : Str) : trimEnd (trimEnd s) = trimEnd s := by
  simp [trimEnd, trimStart_idem]

theorem trim_trimEnd (s : Str) : trim (trimEnd s) = trim s := by
  simp [trim, trimEnd_trimEnd]

theorem trimEnd_eq_of_trim_eq {t : Str} (h : trim t = t) : trimEnd t = t := by
  have h1 : (trimEnd t).length ≤ t.length := by
    simpa [trimEnd] using trimStart_length_le t.reverse
  have h2 : t.length ≤ (trimEnd t).length := by
    conv_lhs => rw [← h]
    exact trimStart_length_le (trimEnd t)
  have hlen : (trimStart t.reverse).length = t.reverse.length := by
    have : (trimEnd t).length = t.length := Nat.le_antisymm h1 h2
    simpa [trimEnd] using this
  have := trimStart_eq_self_of_length t.reverse hlen
  simp [trimEnd, this]

theorem trimStart_eq_of_trim_eq {t : Str} (h : trim t = t) : trimStart t = t := by
  have he := trimEnd_eq_of_trim_eq h
  calc trimStart t = trimStart (trimEnd t) := by rw [he]
    _ = t := h

theorem trimStart_cons_of_not_white {c : Char} (l : Str) (h : ¬ jsWhite c = true) :
    trimStart (c :: l) = c :: l := by
  simp [trimStart, h]

theorem head_not_white_of_trimStart_eq {t : Str} (hne : t ≠ [])
    (h : trimStart t = t) : ∃ c r, t = c :: r ∧ ¬ jsWhite c = true := by
  cases t with
  | nil => exact absurd rfl hne
  | cons c r =>
      refine ⟨c, r, rfl, ?_⟩
      intro hw
      simp only [trimStart, hw, if_pos] at h
      have := trimStart_length_le r
      rw [h] at this
      simp at this

theorem trimEnd_append_of_trimEnd_eq {t : Str} (pre : Str) (hne : t ≠ [])
    (h : trimEnd t = t) : trimEnd (pre ++ t) = pre ++ t := by
  have hrev : trimStart t.reverse = t.reverse := by
    have := congrArg List.reverse h
    simpa [trimEnd] using this
  have hrne : t.reverse ≠ [] := by simpa using hne
  obtain ⟨c, r, hcr, hcw⟩ := head_not_white_of_trimStart_eq hrne hrev
  have : trimStart (t.reverse ++ pre.reverse) = t.reverse ++ pre.reverse := by
    rw [hcr]
    exact trimStart_cons_of_not_white _ hcw
  simp [trimEnd, List.reverse_append, this]

theorem splitNL_no_newline {s : Str} (h : ∀ c ∈ s, c ≠ '\n') :
    splitNL s = [s] := by
  induction s with
  | nil => rfl
  | cons c r ih =>
      have hc : c ≠ '\n' := h c (List.mem_cons_self ..)
      have hr := ih fun x hx => h x (List.mem_cons_of_mem _ hx)
      simp [splitNL, hc, hr]

theorem parseRefsGo_all_blank (lines : List Str) (refs : List (Nat × Str))
    (h : ∀ l ∈ lines, trim l = []) :
    parseRefsGo lines refs = (refs, lines.length) := by
  induction lines with
  | nil => rfl
  | cons l rest ih =>
      have hl : trim l = [] := h l (List.mem_cons_self ..)
      have hr := ih fun x hx => h x (List.mem_cons_of_mem _ hx)
      simp [parseRefsGo, hl, hr]

/-- C9.  Encoding the empty object emits no lines (the empty string);
decoding any input whose lines are all blank — in particular the empty
string — yields `null`; hence `decode(encode({}))` is `null`, not `{}`:
the empty object does not survive a round trip.  Confirmed. -/
theorem C9_empty_object_decodes_null :
    encodeDefault (Json.obj []) = [] ∧
    (∀ input : Str, (∀ l ∈ splitNL input, trim l = []) →
      decodeDefault input = .ok .null) ∧
    decodeDefault (encodeDefault (Json.obj [])) = .ok .null := by
  refine ⟨by decide, ?_, rfl⟩
  intro input h
  have hall : ∀ l ∈ (splitNL input).map trimEnd, trim l = [] := by
    intro l hl
    obtain ⟨l0, hl0, rfl⟩ := List.mem_map.mp hl
    rw [trim_trimEnd]
    exact h l0 hl0
  unfold decodeDefault decodeWith
  dsimp only
  rw [parseRefsGo_all_blank _ _ hall]
  simp [parseValueGo, finalizeLevel, Except.map]

/-- C9 witness: a concrete input of blank lines decodes to `null` via the
universal part of the theorem. -/
theorem C9_empty_object_decodes_null_witness :
    decodeDefault ['\n', ' ', ' ', '\n'] = .ok .null :=
  C9_empty_object_decodes_null.2.1 ['\n', ' ', ' ', '\n'] (by decide)

/-- C2 as amended: when `parseValue` finishes a level whose accumulated
object has exactly one key `-`, the bound value is returned unwrapped if
and only if it is JS-truthy (`result['-']` is a truthiness test); for the
falsy values `false`, `0`, the empty string and `null` the one-key object
itself is returned.  Stated over a whole decode of the single level
`-:<token>` for every trimmed, newline-free, nonempty token whose
primitive parse succeeds. -/
theorem C2_amended_unwrap_truthy (t : Str) (v : Json)
    (htr : trim t = t) (hne : t ≠ []) (hnl : ∀ c ∈ t, c ≠ '\n')
    (hp : parsePrimitiveF (t.length + 1) t [] = .ok v) :
    decodeDefault ('-' :: ':' :: t) =
      .ok (if jsTruthy v then v else .obj [(['-'], v)]) := by
  have hlnl : ∀ c ∈ '-' :: ':' :: t, c ≠ '\n' := by
    intro c hc
    simp only [List.mem_cons] at hc
    rcases hc with rfl | rfl | hc
    · decide
    · decide
    · exact hnl c hc
  have hsplit : splitNL ('-' :: ':' :: t) = ['-' :: ':' :: t] :=
    splitNL_no_newline hlnl
  have hte : trimEnd ('-' :: ':' :: t) = '-' :: ':' :: t := by
    have := trimEnd_append_of_trimEnd_eq (t := t) ['-', ':'] hne
      (trimEnd_eq_of_trim_eq htr)
    simpa using this
  have htl : trim ('-' :: ':' :: t) = '-' :: ':' :: t := by
    unfold trim
    rw [hte]
    exact trimStart_cons_of_not_white _ (by decide)
  have hcolon : splitAtFirst ':' ('-' :: ':' :: t) = some (['-'], t) := by
    simp [splitAtFirst]
  have hhdr : matchArrayHeader ['-'] = none := rfl
  unfold decodeDefault decodeWith
  dsimp only
  rw [hsplit]
  simp only [List.map, hte]
  have hrefs : parseRefsGo ['-' :: ':' :: t] [] = ([], 0) := by
    simp [parseRefsGo, htl, refLine]
  rw [hrefs]
  show Except.map Prod.fst
      (parseValueGo ⟨['-' :: ':' :: t], [], {}⟩ 2 0 0 []) =
    Except.ok (if jsTruthy v = true then v else Json.obj [(['-'], v)])
  unfold parseValueGo
  simp +decide [List.getD, htl, hcolon, hhdr, indentLevel, hne, hp, upsert,
    parseValueGo, finalizeLevel, Except.map, Except.bind, bind]

/-- C2 amended witness: the truthy token `5` under the sole key `-` is
returned unwrapped. -/
theorem C2_amended_unwrap_truthy_witness :
    decodeDefault ['-', ':', '5'] = .ok (.num 5) := by
  have h := C2_amended_unwrap_truthy ['5'] (.num 5) (by decide) (by decide)
    (by decide) rfl
  simpa using h

theorem quotingChar_split (c : Char) :
    quotingChar c = true ↔
      (refQuotingChar c = true ∨
        (c = '[' || c = ']' || c = '{' || c = '}' || c = ',') = true) := by
  simp only [quotingChar, refQuotingChar, Bool.or_eq_true, decide_eq_true_eq]
  tauto

/-- C5 counterexample.  The claim says the reference manager's
`escapeValue` equals `escapeString` on all inputs; but `escapeValue`'s
character class lacks `[ ] { } ,` and the leading-digit rule, so on
`a,b` (a comma, no other trigger) `escapeValue` leaves the string bare
while `escapeString` quotes it. -/
theorem C5_counterexample :
    escapeValue "a,b".data = "a,b".data ∧
    escapeString "a,b".data = '"' :: "a,b".data ++ ['"'] ∧
    escapeValue "a,b".data ≠ escapeString "a,b".data := by
  refine ⟨by decide, by decide, by decide⟩

/-- C5 as amended: `escapeValue` quotes exactly on
`[:|\t\n\r"^@]`-characters or a double space; every string it quotes,
`escapeString` quotes too, and the two functions agree on all strings with
none of the extra triggers `[ ] { } ,` or a leading digit. -/
theorem C5_amended_escape_agreement :
    (∀ s : Str, refNeedsQuoting s = true → needsQuoting s = true) ∧
    (∀ s : Str, extraQuotingTrigger s = false → escapeValue s = escapeString s) := by
  constructor
  · intro s h
    simp only [refNeedsQuoting, Bool.or_eq_true] at h
    simp only [needsQuoting, Bool.or_eq_true]
    rcases h with h | h
    · obtain ⟨c, hc, hqc⟩ := List.any_eq_true.mp h
      have : s.any quotingChar = true :=
        List.any_eq_true.mpr ⟨c, hc, (quotingChar_split c).mpr (Or.inl hqc)⟩
      tauto
    · tauto
  · intro s h
    simp only [extraQuotingTrigger, Bool.or_eq_false_iff] at h
    obtain ⟨hbr, hdg⟩ := h
    have hq : s.any quotingChar = s.any refQuotingChar := by
      cases hqc : s.any refQuotingChar with
      | true =>
          obtain ⟨c, hc, hrc⟩ := List.any_eq_true.mp hqc
          exact List.any_eq_true.mpr ⟨c, hc, (quotingChar_split c).mpr (Or.inl hrc)⟩
      | false =>
          refine List.any_eq_false.mpr ?_
          intro c hc hqcc
          have h1 := List.any_eq_false.mp hqc c hc
          have h2 := List.any_eq_false.mp hbr c hc
          rcases (quotingChar_split c).mp hqcc with hl | hr
          · exact h1 hl
          · exact h2 hr
    unfold escapeValue escapeString refNeedsQuoting needsQuoting
    rw [hq, hdg]
    simp

/-- C5 amended witness: both parts applied at concrete strings. -/
theorem C5_amended_escape_agreement_witness :
    needsQuoting [':'] = true ∧
    escapeValue ['a', 'b'] = escapeString ['a', 'b'] :=
  ⟨C5_amended_escape_agreement.1 [':'] (by decide),
   C5_amended_escape_agreement.2 ['a', 'b'] (by decide)⟩

theorem escBody_head_ne_quote (s : Str) :
    escBody s = [] ∨ ∃ x xs, escBody s = x :: xs ∧ x ≠ '"' := by
  cases s with
  | nil => exact Or.inl rfl
  | cons c r =>
      by_cases hb : c = '\\'
      · exact Or.inr ⟨'\\', '\\' :: escBody r, by simp [escBody, hb], by decide⟩
      · by_cases hq : c = '"'
        · exact Or.inr ⟨'\\', '"' :: escBody r, by simp [escBody, hb, hq], by decide⟩
        · exact Or.inr ⟨c, escBody r, by simp [escBody, hb, hq], hq⟩

theorem rq_cons_ne {c : Char} (l : Str) (h : c ≠ '\\') :
    replaceQuotePass (c :: l) = c :: replaceQuotePass l := by
  rw [replaceQuotePass.eq_def]
  split
  · rename_i heq
    exact absurd heq (by simp)
  · rename_i heq
    injection heq with h1 h2
    exact absurd h1 h
  · rename_i heq
    injection heq with h1 h2
    subst h1
    subst h2
    rfl

theorem rb_cons_ne {c : Char} (l : Str) (h : c ≠ '\\') :
    replaceBackslashPass (c :: l) = c :: replaceBackslashPass l := by
  rw [replaceBackslashPass.eq_def]
  split
  · rename_i heq
    exact absurd heq (by simp)
  · rename_i heq
    injection heq with h1 h2
    exact absurd h1 h
  · rename_i heq
    injection heq with h1 h2
    subst h1
    subst h2
    rfl

theorem rq_bs_cons (l : Str) (h : ∀ r2 : Str, l ≠ '"' :: r2) :
    replaceQuotePass ('\\' :: l) = '\\' :: replaceQuotePass l := by
  rw [replaceQuotePass.eq_def]
  split
  · rename_i heq
    exact absurd heq (by simp)
  · rename_i heq
    injection heq with h1 h2
    exact absurd h2 (h _)
  · rename_i heq
    injection heq with h1 h2
    subst h1
    subst h2
    rfl

theorem unescape_escBody (s : Str) :
    replaceBackslashPass (replaceQuotePass (escBody s)) = s := by
  induction s with
  | nil => rfl
  | cons c r ih =>
      by_cases hb : c = '\\'
      · subst hb
        have h1 : escBody ('\\' :: r) = '\\' :: '\\' :: escBody r := by
          simp [escBody]
        have h2 : ∀ r2 : Str, ('\\' :: escBody r) ≠ '"' :: r2 := by
          intro r2 hcontra
          injection hcontra with ha _
          exact absurd ha (by decide)
        have h3 : ∀ r2 : Str, escBody r ≠ '"' :: r2 := by
          intro r2 hcontra
          rcases escBody_head_ne_quote r with hnil | ⟨x, xs, hx, hxq⟩
          · rw [hnil] at hcontra
            exact absurd hcontra (by simp)
          · rw [hx] at hcontra
            injection hcontra with ha _
            exact absurd ha hxq
      
        rw [h1, rq_bs_cons _ h2, rq_bs_cons _ h3]
        have h4 : replaceBackslashPass ('\\' :: '\\' :: replaceQuotePass (escBody r)) =
            '\\' :: replaceBackslashPass (replaceQuotePass (escBody r)) := rfl
        rw [h4, ih]
      · by_cases hq : c = '"'
        · subst hq
          have h1 : escBody ('"' :: r) = '\\' :: '"' :: escBody r := by
            simp [escBody, hb]
          have h2 : replaceQuotePass ('\\' :: '"' :: escBody r) =
              '"' :: replaceQuotePass (escBody r) := rfl
          rw [h1, h2, rb_cons_ne _ (by decide), ih]
        · have h1 : escBody (c :: r) = c :: escBody r := by
            simp [escBody, hb, hq]
          rw [h1, rq_cons_ne _ hb, rb_cons_ne _ hb, ih]

theorem getLast_quoted (s : Str) :
    ('"' :: escBody s ++ ['"']).getLast? = some '"' := by
  rw [show ('"' :: escBody s ++ ['"']) = ('"' :: escBody s) ++ ['"'] from rfl]
  exact List.getLast?_concat ..

theorem unescape_escape_quoted (s : Str) :
    unescapeString ('"' :: escBody s ++ ['"']) = s := by
  have hlast : lastIs '"' ('"' :: escBody s ++ ['"']) = true := by
    unfold lastIs
    rw [getLast_quoted]
    rfl
  have hstrip : (('"' :: escBody s ++ ['"']).drop 1).dropLast = escBody s := by
    simp [List.dropLast_concat]
  unfold unescapeString
  rw [hlast]
  simp only [headIs, Bool.and_true, decide_eq_true_eq, if_pos]
  rw [hstrip]
  exact unescape_escBody s

theorem trimEnd_quoted (s : Str) :
    trimEnd ('"' :: escBody s ++ ['"']) = '"' :: escBody s ++ ['"'] := by
  have := trimEnd_append_of_trimEnd_eq (t := ['"']) ('"' :: escBody s)
    (by simp) (by decide)
  simpa using this

theorem trim_quoted (s : Str) :
    trim ('"' :: escBody s ++ ['"']) = '"' :: escBody s ++ ['"'] := by
  unfold trim
  rw [trimEnd_quoted]
  exact trimStart_cons_of_not_white _ (by decide)

theorem not_mem_of_quotingChar_false {s : Str} (c : Char)
    (h : s.any quotingChar = false) (hq : quotingChar c = true) : c ∉ s := by
  intro hc
  have := List.any_eq_false.mp h c hc
  exact this hq

theorem head_ne_of_no_quoting {s : Str} {c : Char}
    (h : s.any quotingChar = false) (hq : quotingChar c = true) :
    headIs c s = false := by
  cases s with
  | nil => rfl
  | cons d r =>
      have hd := List.any_eq_false.mp h d (List.mem_cons_self ..)
      simp only [headIs, decide_eq_false_iff_not]
      intro hcontra
      subst hcontra
      exact hd hq

/-- C6 counterexample.  The claim's second half says every string the
encoder emits unquoted decodes back to the same string; but the string
`_` needs no quoting, is emitted bare, and `parsePrimitive` then returns
`null` — a different type. -/
theorem C6_counterexample :
    needsQuoting ['_'] = false ∧ escapeString ['_'] = ['_'] ∧
    parsePrimitiveF 2 ['_'] [] = .ok .null ∧ Json.null ≠ Json.str ['_'] :=
  ⟨by decide, by decide, rfl, by simp⟩

/-- C6 as amended.  First half (as claimed): a string containing `:`,
`|`, or a double space is quoted on encode, and `parsePrimitive` on the
emitted token recovers exactly the original string.  Second half
(restricted): a string the encoder emits unquoted is decoded unchanged
provided it is not one of the primitive tokens `_`, `+`, `-`, is not
numeric under the `Number(...)` grammar, and carries no leading or
trailing whitespace (the decoder trims the value part; numeric-looking
bare strings such as `-5` or `Infinity` come back as numbers and the
three primitive tokens as null/booleans). -/
theorem C6_amended_quoting_roundtrip :
    (∀ s : Str, (':' ∈ s ∨ '|' ∈ s ∨ hasDoubleSpace s = true) →
      needsQuoting s = true ∧
      escapeString s = '"' :: escBody s ++ ['"'] ∧
      (∀ (f : Nat) (refs : List (Nat × Str)),
        parsePrimitiveF (f + 1) (escapeString s) refs = .ok (.str s))) ∧
    (∀ s : Str, needsQuoting s = false → s ≠ ['_'] → s ≠ ['+'] → s ≠ ['-'] →
      jsNumeric s = false → trim s = s →
      escapeString s = s ∧
      (∀ (f : Nat) (refs : List (Nat × Str)),
        parsePrimitiveF (f + 1) s refs = .ok (.str s))) := by
  constructor
  · intro s h
    have hq : needsQuoting s = true := by
      simp only [needsQuoting, Bool.or_eq_true]
      rcases h with h | h | h
      · exact Or.inl (Or.inl (List.any_eq_true.mpr ⟨':', h, by decide⟩))
      · exact Or.inl (Or.inl (List.any_eq_true.mpr ⟨'|', h, by decide⟩))
      · exact Or.inr h
    have hesc : escapeString s = '"' :: escBody s ++ ['"'] := by
      simp [escapeString, hq]
    refine ⟨hq, hesc, ?_⟩
    intro f refs
    rw [hesc]
    unfold parsePrimitiveF
    rw [trim_quoted]
    have h1 : ('"' :: escBody s ++ ['"']) ≠ ['_'] := by simp
    have h2 : ('"' :: escBody s ++ ['"']) ≠ ['+'] := by simp
    have h3 : ('"' :: escBody s ++ ['"']) ≠ ['-'] := by simp
    have h4 : headIs '^' ('"' :: escBody s ++ ['"']) = false := rfl
    have h5 : headIs '[' ('"' :: escBody s ++ ['"']) = false := rfl
    have h6 : headIs '"' ('"' :: escBody s ++ ['"']) = true := rfl
    have h7 : lastIs '"' ('"' :: escBody s ++ ['"']) = true := by
      unfold lastIs
      rw [getLast_quoted]
      rfl
    rw [if_neg h1, if_neg h2, if_neg h3]
    rw [h4]
    simp only [Bool.false_eq_true, if_false]
    rw [h5]
    simp only [Bool.false_and, Bool.false_eq_true, if_false]
    rw [h6, h7]
    simp only [Bool.and_self, if_true]
    rw [unescape_escape_quoted]
  · intro s hq h1 h2 h3 hnum htrim
    have hany : s.any quotingChar = false := by
      simp only [needsQuoting, Bool.or_eq_false_iff] at hq
      exact hq.1.1
    have hesc : escapeString s = s := by
      simp [escapeString, hq]
    refine ⟨hesc, ?_⟩
    intro f refs
    unfold parsePrimitiveF
    rw [htrim]
    rw [if_neg h1, if_neg h2, if_neg h3]
    rw [head_ne_of_no_quoting hany (by decide : quotingChar '^' = true)]
    simp only [Bool.false_eq_true, if_false]
    rw [head_ne_of_no_quoting hany (by decide : quotingChar '[' = true)]
    simp only [Bool.false_and, Bool.false_eq_true, if_false]
    rw [head_ne_of_no_quoting hany (by decide : quotingChar '"' = true)]
    simp only [Bool.false_and, Bool.false_eq_true, if_false]
    rw [hnum, Bool.and_false]
    simp only [Bool.false_eq_true, if_false]

/-- C6 amended witness: the quoted token for `a:b` and the bare token
`hi` both decode to the original strings. -/
theorem C6_amended_quoting_roundtrip_witness :
    parsePrimitiveF 6 (escapeString ['a', ':', 'b']) [] =
      .ok (.str ['a', ':', 'b']) ∧
    parsePrimitiveF 3 ['h', 'i'] [] = .ok (.str ['h', 'i']) :=
  ⟨(C6_amended_quoting_roundtrip.1 ['a', ':', 'b'] (Or.inl (by decide))).2.2 5 [],
   (C6_amended_quoting_roundtrip.2 ['h', 'i'] (by decide) (by decide)
     (by decide) (by decide) (by decide) (by decide)).2 2 []⟩

theorem getD_append_replicate_nil (values : List Str) (k j : Nat) :
    (values ++ List.replicate k ([] : Str)).getD j [] = values.getD j [] := by
  induction values generalizing j with
  | nil =>
      simp only [List.nil_append]
      induction k generalizing j with
      | zero => rfl
      | succ k ih =>
          cases j with
          | zero => rfl
          | succ j => exact ih j
  | cons v vs ih =>
      cases j with
      | zero => rfl
      | succ j => simpa [List.getD] using ih j

theorem rowObjGo_pad (refs : List (Nat × Str)) (values : List Str) (k : Nat) :
    ∀ (fields : List Str) (j : Nat) (acc : List (Str × Json)),
    rowObjGo refs (values ++ List.replicate k []) j fields acc =
      rowObjGo refs values j fields acc := by
  intro fields
  induction fields with
  | nil => intro j acc; rfl
  | cons fkey fs ih =>
      intro j acc
      simp only [rowObjGo, getD_append_replicate_nil]
      cases hp : parsePrimitiveF ((values.getD j []).length + 1) (values.getD j []) refs with
      | error e => rfl
      | ok v => exact ih (j + 1) (upsert fkey v acc)

/-- C7.  A tabular row whose quote-aware split yields fewer cells than the
header declares fields: strict mode raises the parse error `Expected k
values, got m`; lenient mode accepts the row, reading every missing
trailing cell as the empty string (`values[j] || ''`), which
`parsePrimitive` returns as the empty string.  Confirmed. -/
theorem C7_short_row_strict_error_lenient_pad :
    (∀ (row : Str) (fields : List Str) (d : Char) (refs : List (Nat × Str))
        (count f : Nat) (vv th : Bool),
      trim row ≠ [] →
      (splitByDelimiter (trim row) d).length < fields.length →
      parseTabRows ⟨[row], refs, ⟨true, vv, th⟩⟩ (f + 1) 0 0 (count + 1) fields d [] =
        .error (.fieldCountMismatch fields.length
          (splitByDelimiter (trim row) d).length 1)) ∧
    (∀ (row : Str) (fields : List Str) (d : Char) (refs : List (Nat × Str))
        (f : Nat) (vv th : Bool) (o : List (Str × Json)),
      trim row ≠ [] →
      (splitByDelimiter (trim row) d).length < fields.length →
      rowObjGo refs (splitByDelimiter (trim row) d) 0 fields [] = .ok o →
      parseTabRows ⟨[row], refs, ⟨false, vv, th⟩⟩ (f + 2) 0 0 1 fields d [] =
        .ok ([.obj o], 1)) ∧
    (∀ (refs : List (Nat × Str)) (values : List Str) (k : Nat)
        (fields : List Str) (j : Nat) (acc : List (Str × Json)),
      rowObjGo refs (values ++ List.replicate k []) j fields acc =
        rowObjGo refs values j fields acc) ∧
    (∀ (f : Nat) (refs : List (Nat × Str)),
      parsePrimitiveF (f + 1) [] refs = .ok (.str [])) := by
  refine ⟨?_, ?_, fun refs values k fields j acc => rowObjGo_pad refs values k fields j acc,
    fun f refs => rfl⟩
  · intro row fields d refs count f vv th hrow hlt
    unfold parseTabRows
    simp only [List.length_cons, List.length_nil, List.getD, List.get?, Option.getD]
    rw [if_neg (by omega), if_neg (by simp), if_neg hrow,
      if_pos (by simp [Nat.ne_of_lt hlt])]
  · intro row fields d refs f vv th o hrow hlt hobj
    unfold parseTabRows
    simp only [List.length_cons, List.length_nil, List.getD, List.get?, Option.getD]
    rw [if_neg (by omega), if_neg (by simp), if_neg hrow,
      if_neg (by simp)]
    rw [hobj]
    show parseTabRows ⟨[row], refs, ⟨false, vv, th⟩⟩ (f + 1) 1 1 1 fields d [.obj o] =
      .ok ([.obj o], 1)
    unfold parseTabRows
    rw [if_pos (by omega)]

/-- C7 witness: the row `1` against fields `id,name`. -/
theorem C7_short_row_strict_error_lenient_pad_witness :
    parseTabRows ⟨[['1']], [], ⟨true, true, true⟩⟩ 1 0 0 1
        [['i', 'd'], ['n', 'a', 'm', 'e']] '|' [] =
      .error (.fieldCountMismatch 2 1 1) ∧
    parseTabRows ⟨[['1']], [], ⟨false, true, true⟩⟩ 2 0 0 1
        [['i', 'd'], ['n', 'a', 'm', 'e']] '|' [] =
      .ok ([.obj [(['i', 'd'], .num 1), (['n', 'a', 'm', 'e'], .str [])]], 1) := by
  constructor
  · have h := C7_short_row_strict_error_lenient_pad.1 ['1']
      [['i', 'd'], ['n', 'a', 'm', 'e']] '|' [] 0 0 true true
      (by decide) (by decide)
    simpa using h
  · have h := C7_short_row_strict_error_lenient_pad.2.1 ['1']
      [['i', 'd'], ['n', 'a', 'm', 'e']] '|' [] 0 true true
      [(['i', 'd'], .num 1), (['n', 'a', 'm', 'e'], .str [])]
      (by decide) (by decide) rfl
    simpa using h

theorem encodeValue_arr (ctx : EncCtx) (arr : List Json) (key : Str) (depth : Nat) :
    encodeValue ctx (.arr arr) key depth = encodeArray ctx arr key depth := by
  cases arr with
  | nil => rfl
  | cons a rest => rfl

theorem shouldUseColumnar_short (opts : EncodeOptions) (arr : List Json)
    (h : arr.length < 1000) : shouldUseColumnar opts arr = false := by
  unfold shouldUseColumnar
  split
  · rfl
  · have : decide (1000 ≤ arr.length) = false := by
      simp
      omega
    simp [this]

/-- C8.  An array of exactly 2 uniform primitive-valued objects renders in
list form (`key@2:` with the elements under the synthetic key `-` one
level deeper), not tabular; an array of 3 or more uniform primitive-valued
objects not qualifying as columnar renders as the tabular header
`key@<n><delim><fields>:` followed by exactly one delimiter-joined row per
element.  Confirmed. -/
theorem C8_tabular_threshold :
    (∀ (ctx : EncCtx) (key : Str) (depth : Nat) (e1 e2 : Json),
      haveSameStructure [e1, e2] = true →
      allPrimitiveValues [e1, e2] = true →
      encodeArray ctx [e1, e2] key depth =
        (indentStr depth ctx.opts.indentW ++ key ++ ['@', '2', ':']) ::
          (encodeValue ctx e1 ['-'] (depth + 1) ++
            encodeValue ctx e2 ['-'] (depth + 1))) ∧
    (∀ (ctx : EncCtx) (key : Str) (depth : Nat) (arr : List Json),
      3 ≤ arr.length →
      haveSameStructure arr = true →
      allPrimitiveValues arr = true →
      shouldUseColumnar ctx.opts arr = false →
      encodeArray ctx arr key depth =
        (indentStr depth ctx.opts.indentW ++ key ++ '@' ::
            natToChars arr.length ++
            ctx.delim :: ((getCommonKeys arr).intersperse [',']).flatten ++ [':']) ::
          arr.map fun o =>
            indentStr depth ctx.opts.indentW ++
              (((getCommonKeys arr).map fun k =>
                formatValue ctx.refs (getField k o)).intersperse [ctx.delim]).flatten) := by
  constructor
  · intro ctx key depth e1 e2 hss hapv
    have hcol : shouldUseColumnar ctx.opts [e1, e2] = false :=
      shouldUseColumnar_short _ _ (by simp)
    have htab : shouldUseTabular [e1, e2] = false := by
      simp [shouldUseTabular]
    have hobj : isObjectJ e1 = true := by
      simp only [allPrimitiveValues, Bool.and_eq_true, List.all_cons] at hapv
      exact hapv.1.1
    have hprim : isAllPrimitives [e1, e2] = false := by
      simp only [isAllPrimitives, List.all_cons]
      cases e1 with
      | obj f => simp [isPrimitiveJ]
      | _ => simp [isObjectJ] at hobj
    unfold encodeArray
    dsimp only
    rw [hcol, htab, hprim]
    simp [encodeListItems]
    rfl
  · intro ctx key depth arr hlen hss hapv hcol
    have htab : shouldUseTabular arr = true := by
      simp [shouldUseTabular, hss, hapv, hlen]
    cases arr with
    | nil => simp at hlen
    | cons a rest =>
        unfold encodeArray
        dsimp only
        rw [hcol, htab]
        simp only [if_true, Bool.false_eq_true, if_false]
        rfl

/-- C8 witness: two and three uniform `{id: n}` objects under a default
context. -/
theorem C8_tabular_threshold_witness :
    encodeArray ⟨{}, '|', []⟩
        [.obj [(['i', 'd'], .num 1)], .obj [(['i', 'd'], .num 2)]]
        ['u'] 0 =
      ["u@2:".data, "  -:".data, "    id:1".data, "  -:".data, "    id:2".data] ∧
    encodeArray ⟨{}, '|', []⟩
        [.obj [(['i', 'd'], .num 1)], .obj [(['i', 'd'], .num 2)],
          .obj [(['i', 'd'], .num 3)]]
        ['u'] 0 =
      ["u@3|id:".data, "1".data, "2".data, "3".data] := by
  constructor
  · have h := C8_tabular_threshold.1 ⟨{}, '|', []⟩ ['u'] 0
      (.obj [(['i', 'd'], .num 1)]) (.obj [(['i', 'd'], .num 2)])
      (by decide) (by decide)
    simpa using h
  · have h := C8_tabular_threshold.2 ⟨{}, '|', []⟩ ['u'] 0
      [.obj [(['i', 'd'], .num 1)], .obj [(['i', 'd'], .num 2)],
        .obj [(['i', 'd'], .num 3)]]
      (by decide) (by decide) (by decide) (by decide)
    simpa using h

theorem splitGo_append_delim (d : Char) (hd1 : d ≠ '"') (hd2 : d ≠ '\\') :
    ∀ (pre cur : Str) (q e : Bool), scanQE pre (q, e) = (false, false) →
    splitPositionsGo d (pre ++ [d]) cur q e =
      splitByDelimGo d (pre ++ [d]) cur q e ++ [[]] := by
  intro pre
  induction pre with
  | nil =>
      intro cur q e hscan
      simp only [scanQE, Prod.mk.injEq] at hscan
      obtain ⟨rfl, rfl⟩ := hscan
      simp only [List.nil_append, splitPositionsGo, splitByDelimGo]
      simp [hd1, hd2]
  | cons c pre ih =>
      intro cur q e hscan
      cases e with
      | true =>
          have hscan' : scanQE pre (q, false) = (false, false) := by
            simpa [scanQE] using hscan
          simp only [List.cons_append, splitPositionsGo, splitByDelimGo, if_true]
          exact ih (cur ++ [c]) q false hscan'
      | false =>
          by_cases hb : c = '\\'
          · subst hb
            have hscan' : scanQE pre (q, true) = (false, false) := by
              simpa [scanQE] using hscan
            simp only [List.cons_append, splitPositionsGo, splitByDelimGo,
              if_false, if_pos rfl, Bool.false_eq_true]
            exact ih (cur ++ ['\\']) q true hscan'
          · by_cases hq2 : c = '"'
            · subst hq2
              have hscan' : scanQE pre (!q, false) = (false, false) := by
                simpa [scanQE] using hscan
              simp only [List.cons_append, splitPositionsGo, splitByDelimGo,
                if_neg hb, if_pos rfl, Bool.false_eq_true, if_false]
              exact ih (cur ++ ['"']) (!q) false hscan'
            · have hscan' : scanQE pre (q, false) = (false, false) := by
                simpa [scanQE, hb, hq2] using hscan
              by_cases hB : (!q && decide (c = d)) = true
              · simp only [List.cons_append, splitPositionsGo, splitByDelimGo,
                  if_neg hb, if_neg hq2, hB, if_true, Bool.false_eq_true, if_false]
                exact congrArg (List.cons cur) (ih [] q false hscan')
              · simp only [List.cons_append, splitPositionsGo, splitByDelimGo,
                  if_neg hb, if_neg hq2, hB, Bool.false_eq_true, if_false]
                exact ih (cur ++ [c]) q false hscan'

/-- C10.  The quote-aware splitter drops a row's final field when the row
ends with an unquoted, unescaped delimiter: the result has one fewer cell
than the number of delimiter-separated positions (`splitPositions`, the
same state machine that keeps the final empty field).  Consequently a
strict-mode tabular row whose last declared field holds the empty string
fails with a field-count parse error even when the row was produced by
the encoder, as evaluated on the three-row example whose `role` field is
`""`.  Confirmed. -/
theorem C10_trailing_delimiter_dropped :
    (∀ (d : Char) (pre : Str), d ≠ '"' → d ≠ '\\' →
      scanQE pre (false, false) = (false, false) →
      (splitPositions (pre ++ [d]) d).length =
        (splitByDelimiter (pre ++ [d]) d).length + 1) ∧
    encodeDefault exEmptyLast =
      "users@3|id,name,role:\n1|Alice|\n2|Bob|\n3|Charlie|".data ∧
    decodeDefault "users@3|id,name,role:\n1|Alice|\n2|Bob|\n3|Charlie|".data =
      .error (.fieldCountMismatch 3 2 2) := by
  refine ⟨?_, by decide, rfl⟩
  intro d pre hd1 hd2 hscan
  unfold splitPositions splitByDelimiter
  rw [splitGo_append_delim d hd1 hd2 pre [] false false hscan]
  simp

/-- C10 witness: the encoder-produced row `1|Alice|` has three positions
but splits into two cells. -/
theorem C10_trailing_delimiter_dropped_witness :
    (splitPositions "1|Alice|".data '|').length =
      (splitByDelimiter "1|Alice|".data '|').length + 1 := by
  have h := C10_trailing_delimiter_dropped.1 '|' "1|Alice".data
    (by decide) (by decide) (by decide)
  simpa using h

theorem bumpCount_keys_subset {s x : Str} :
    ∀ (l : List (Str × Nat)), x ∈ (bumpCount s l).map Prod.fst →
      x ∈ l.map Prod.fst ∨ x = s := by
  intro l
  induction l with
  | nil =>
      intro h
      simp [bumpCount] at h
      exact Or.inr h
  | cons p r ih =>
      obtain ⟨a, b⟩ := p
      intro h
      by_cases hp : a = s
      · simp only [bumpCount, hp, if_pos, List.map_cons, List.mem_cons] at h
        rcases h with h | h
        · exact Or.inl (by simp [h, hp])
        · exact Or.inl (by simp [List.mem_cons, h])
      · simp only [bumpCount, hp, if_neg, if_false, List.map_cons,
          List.mem_cons] at h
        rcases h with h | h
        · exact Or.inl (by simp [h])
        · rcases ih h with h2 | h2
          · exact Or.inl (by simp [List.mem_cons, h2])
          · exact Or.inr h2

theorem bumpCount_nodup {s : Str} :
    ∀ (l : List (Str × Nat)), (l.map Prod.fst).Nodup →
      ((bumpCount s l).map Prod.fst).Nodup := by
  intro l
  induction l with
  | nil =>
      intro _
      simp [bumpCount]
  | cons p r ih =>
      obtain ⟨a, b⟩ := p
      intro h
      simp only [List.map_cons, List.nodup_cons] at h
      by_cases hp : a = s
      · simp only [bumpCount, hp, if_pos, List.map_cons, List.nodup_cons]
        exact ⟨hp ▸ h.1, h.2⟩
      · simp only [bumpCount, hp, if_neg, if_false, List.map_cons,
          List.nodup_cons]
        refine ⟨?_, ih h.2⟩
        intro hmem
        rcases bumpCount_keys_subset r hmem with h2 | h2
        · exact h.1 h2
        · exact hp h2

mutual
theorem countStrings_nodup (v : Json) (acc : List (Str × Nat))
    (h : (acc.map Prod.fst).Nodup) :
    ((countStrings v acc).map Prod.fst).Nodup := by
  cases v with
  | str s => exact bumpCount_nodup acc h
  | arr l => exact countStringsList_nodup l acc h
  | obj f => exact countStringsFields_nodup f acc h
  | null => simpa [countStrings] using h
  | bool b => simpa [countStrings] using h
  | num n => simpa [countStrings] using h

theorem countStringsList_nodup (l : List Json) (acc : List (Str × Nat))
    (h : (acc.map Prod.fst).Nodup) :
    ((countStringsList l acc).map Prod.fst).Nodup := by
  cases l with
  | nil => simpa [countStringsList] using h
  | cons x xs =>
      exact countStringsList_nodup xs (countStrings x acc)
        (countStrings_nodup x acc h)

theorem countStringsFields_nodup (f : List (Str × Json)) (acc : List (Str × Nat))
    (h : (acc.map Prod.fst).Nodup) :
    ((countStringsFields f acc).map Prod.fst).Nodup := by
  cases f with
  | nil => simpa [countStringsFields] using h
  | cons x xs =>
      exact countStringsFields_nodup xs (countStrings x.2 acc)
        (countStrings_nodup x.2 acc h)
end

theorem alookup_eq_some_mem {α : Type} {k : Str} {c : α} :
    ∀ {l : List (Str × α)}, alookup k l = some c → (k, c) ∈ l := by
  intro l
  induction l with
  | nil => intro h; simp [alookup] at h
  | cons p r ih =>
      obtain ⟨a, b⟩ := p
      intro h
      by_cases hp : a = k
      · simp only [alookup, hp, if_pos] at h
        injection h with h
        subst h
        subst hp
        exact List.mem_cons_self ..
      · simp only [alookup, hp, if_neg, if_false] at h
        exact List.mem_cons_of_mem _ (ih h)

theorem mem_alookup_of_nodup {α : Type} {k : Str} {c : α} :
    ∀ {l : List (Str × α)}, (l.map Prod.fst).Nodup → (k, c) ∈ l →
      alookup k l = some c := by
  intro l
  induction l with
  | nil => intro _ h; simp at h
  | cons p r ih =>
      obtain ⟨a, b⟩ := p
      intro hnd h
      simp only [List.map_cons, List.nodup_cons] at hnd
      rcases List.mem_cons.mp h with h | h
      · obtain ⟨h1, h2⟩ := Prod.mk.injEq .. ▸ h
        subst h1
        subst h2
        simp [alookup]
      · have hk : a ≠ k := by
          intro hcontra
          subst hcontra
          exact hnd.1 (List.mem_map.mpr ⟨(a, c), h, rfl⟩)
        simp only [alookup, hk, if_neg, if_false]
        exact ih hnd.2 h

theorem filterMap_keep_single {s : Str} :
    ∀ {l : List (Str × Nat)}, (l.map Prod.fst).Nodup →
    alookup s l = some 3 →
    (∀ p ∈ l, p.1 ≠ s → keepEntry 3 5 10 p.1 p.2 = false) →
    keepEntry 3 5 10 s 3 = true →
    l.filterMap (fun p => if keepEntry 3 5 10 p.1 p.2 then
      some (⟨p.1, p.2, calculateSavings p.1 p.2⟩ : RefEntry) else none) =
      [⟨s, 3, calculateSavings s 3⟩] := by
  intro l
  induction l with
  | nil => intro _ hs; simp [alookup] at hs
  | cons p r ih =>
      obtain ⟨a, b⟩ := p
      intro hnd hs hothers hkeep
      simp only [List.map_cons, List.nodup_cons] at hnd
      by_cases ha : a = s
      · subst ha
        simp only [alookup, if_pos] at hs
        injection hs with hs
        subst hs
        have hrest : r.filterMap (fun p => if keepEntry 3 5 10 p.1 p.2 then
            some (⟨p.1, p.2, calculateSavings p.1 p.2⟩ : RefEntry) else none) = [] := by
          refine List.filterMap_eq_nil_iff.mpr ?_
          intro q hq
          have hqa : q.1 ≠ a := by
            intro hcontra
            exact hnd.1 (hcontra ▸ List.mem_map.mpr ⟨q, hq, rfl⟩)
          rw [if_neg]
          rw [hothers q (List.mem_cons_of_mem _ hq) hqa]
          simp
        simp only [List.filterMap_cons, hkeep, if_pos, hrest]
      · have hs' : alookup s r = some 3 := by
          simpa [alookup, ha] using hs
        have hkf : keepEntry 3 5 10 a b = false :=
          hothers (a, b) (List.mem_cons_self ..) ha
        simp only [List.filterMap_cons, hkf]
        simp only [Bool.false_eq_true, if_false]
        exact ih hnd.2 hs' (fun q hq => hothers q (List.mem_cons_of_mem _ hq)) hkeep

theorem insertBySavings_mem {x e : RefEntry} :
    ∀ {l : List RefEntry}, x ∈ insertBySavings e l → x = e ∨ x ∈ l := by
  intro l
  induction l with
  | nil => intro h; simpa [insertBySavings] using h
  | cons y r ih =>
      intro h
      unfold insertBySavings at h
      split at h
      · rcases List.mem_cons.mp h with h | h
        · exact Or.inl h
        · exact Or.inr h
      · rcases List.mem_cons.mp h with h | h
        · exact Or.inr (List.mem_cons.mpr (Or.inl h))
        · rcases ih h with h2 | h2
          · exact Or.inl h2
          · exact Or.inr (List.mem_cons.mpr (Or.inr h2))

theorem foldl_insertBySavings_mem {x : RefEntry} :
    ∀ (l acc : List RefEntry),
      x ∈ List.foldl (fun acc e => insertBySavings e acc) acc l →
      x ∈ acc ∨ x ∈ l := by
  intro l
  induction l with
  | nil => intro acc h; exact Or.inl h
  | cons e r ih =>
      intro acc h
      rcases ih (insertBySavings e acc) h with h2 | h2
      · rcases insertBySavings_mem h2 with h3 | h3
        · exact Or.inr (List.mem_cons.mpr (Or.inl h3))
        · exact Or.inl h3
      · exact Or.inr (List.mem_cons.mpr (Or.inr h2))

theorem sortBySavings_mem {x : RefEntry} {l : List RefEntry}
    (h : x ∈ sortBySavings l) : x ∈ l := by
  rcases foldl_insertBySavings_mem l [] h with h2 | h2
  · simp at h2
  · exact h2

/-- C3 counterexample.  Under default options the claim fails: the
auto-gate builds a reference table only when `estimateReferenceSavings`
exceeds 50, and a 23-character string occurring exactly 3 times scores
`(3−1)·23 − 3·2 = 40`, so no `^1=` definition is emitted and the string
stays inline in all three positions. -/
theorem C3_counterexample :
    estimateReferenceSavings (analyze exRefObj) = 40 ∧
    encodeDefault exRefObj =
      ("a:abcdefghijklmnopqrstuvw\n" ++
        "b:abcdefghijklmnopqrstuvw\nc:abcdefghijklmnopqrstuvw").data ∧
    (encodeLines exRefObj {}).all
      (fun l => !(("^1=".data).isPrefixOf l)) = true := by
  refine ⟨by decide, by decide, by decide⟩

/-- C3 as amended: with references enabled (`references := true`), a value
whose string-leaf census maps a 23-character string `s` to exactly 3
occurrences, no other string meeting the build thresholds, yields the
reference table `{s ↦ 1}`, the single definition line `^1=<s>`, the
definition block at the head of the encoded output, and every
rendering of the leaf `s` (keyed lines via `encodeValue`, row/inline
cells via `formatValue`) as `^1`; and, for every input, a string kept in
the reference table always occurs at least 3 times and has length at
least 5. -/
theorem C3_amended_reference_compression :
    (∀ (s : Str) (v : Json),
      s.length = 23 →
      alookup s (countStrings v []) = some 3 →
      (∀ p ∈ countStrings v [], p.1 ≠ s → keepEntry 3 5 10 p.1 p.2 = false) →
      buildRefsDefault v = [(s, 1)] ∧
      getDefinitions (buildRefsDefault v) = ['^' :: '1' :: '=' :: escapeValue s] ∧
      encodeLines v { references := .on } =
        ('^' :: '1' :: '=' :: escapeValue s) :: [] ::
          (if isArrayJ v then
            encodeValue ⟨{ references := .on }, chooseDelimiter (analyze v), [(s, 1)]⟩
              v "data".data 0
          else
            encodeValue ⟨{ references := .on }, chooseDelimiter (analyze v), [(s, 1)]⟩
              v [] 0) ∧
      (∀ (opts : EncodeOptions) (delim : Char) (key : Str) (depth : Nat),
        encodeValue ⟨opts, delim, [(s, 1)]⟩ (.str s) key depth =
          [indentStr depth opts.indentW ++ key ++ [':', '^', '1']]) ∧
      formatValue [(s, 1)] (.str s) = ['^', '1']) ∧
    (∀ (w : Json) (t : Str),
      hasReference (buildRefsDefault w) t = true →
      ∃ c, alookup t (countStrings w []) = some c ∧ 3 ≤ c ∧ 5 ≤ t.length) := by
  constructor
  · intro s v hlen hcount hothers
    have hkeep : keepEntry 3 5 10 s 3 = true := by
      simp only [keepEntry, calculateSavings, hlen]
      norm_num
    have hnodup : ((countStrings v []).map Prod.fst).Nodup :=
      countStrings_nodup v [] (by simp)
    have hentries : buildEntries v 3 5 10 = [⟨s, 3, calculateSavings s 3⟩] := by
      unfold buildEntries
      exact filterMap_keep_single hnodup hcount hothers hkeep
    have hrefs : buildRefsDefault v = [(s, 1)] := by
      unfold buildRefsDefault buildRefs
      rw [hentries]
      rfl
    have hdefs : getDefinitions (buildRefsDefault v) =
        ['^' :: '1' :: '=' :: escapeValue s] := by
      rw [hrefs]
      rfl
    rw [hrefs] at hdefs
    refine ⟨hrefs, hrefs ▸ hdefs, ?_, ?_, ?_⟩
    · unfold encodeLines
      dsimp only
      rw [show buildRefsDefault v = [(s, 1)] from hrefs]
      simp [hdefs, hrefs]
    · intro opts delim key depth
      unfold encodeValue
      simp [alookup]
      decide
    · unfold formatValue
      simp [alookup]
      decide
  · intro w t h
    unfold hasReference at h
    cases halk : alookup t (buildRefsDefault w) with
    | none => rw [halk] at h; simp at h
    | some id =>
        have hmem := alookup_eq_some_mem halk
        unfold buildRefsDefault buildRefs at hmem
        obtain ⟨⟨e, i⟩, hz, heq⟩ := List.mem_map.mp hmem
        obtain ⟨hval, _⟩ := Prod.mk.injEq .. ▸ heq
        have hsor : e ∈ sortBySavings (buildEntries w 3 5 10) :=
          (List.of_mem_zip hz).1
        have hent : e ∈ buildEntries w 3 5 10 := sortBySavings_mem hsor
        unfold buildEntries at hent
        obtain ⟨p, hp, hfp⟩ := List.mem_filterMap.mp hent
        by_cases hkp : keepEntry 3 5 10 p.1 p.2 = true
        · rw [if_pos hkp] at hfp
          injection hfp with hfp
          have hv : e.value = p.1 := by rw [← hfp]
          have hocc : e.occurrences = p.2 := by rw [← hfp]
          simp only [keepEntry, Bool.and_eq_true, decide_eq_true_eq] at hkp
          refine ⟨p.2, ?_, hkp.1.1, ?_⟩
          · have hpt : p = (t, p.2) := by
              have : p.1 = t := by rw [← hv, hval]
              cases p with | mk x y => simp at this ⊢; exact this
            rw [hpt] at hp
            exact mem_alookup_of_nodup (countStrings_nodup w [] (by simp)) hp
          · have : p.1 = t := by rw [← hv, hval]
            rw [← this]
            exact hkp.1.2
        · rw [if_neg hkp] at hfp
          exact absurd hfp (by simp)

/-- C3 amended witness: the three-leaf object `exRefObj` instantiates both
halves. -/
theorem C3_amended_reference_compression_witness :
    buildRefsDefault exRefObj = [(exStr23, 1)] ∧
    getDefinitions (buildRefsDefault exRefObj) =
      ['^' :: '1' :: '=' :: escapeValue exStr23] ∧
    (∃ c, alookup exStr23 (countStrings exRefObj []) = some c ∧
      3 ≤ c ∧ 5 ≤ exStr23.length) := by
  have h := C3_amended_reference_compression.1 exStr23 exRefObj
    (by decide) (by decide) (by decide)
  have h2 := C3_amended_reference_compression.2 exRefObj exStr23
    (by decide)
  exact ⟨h.1, h.2.1, h2⟩

end CTF
